import Mathlib

/-!
Verification development for the HWPX slot-filler repository.

The program fills named slots inside a zip-packaged multi-part XML document
(HWPX).  Two generations of the engine exist in the repository:

* `week03a_insert_HWPX_images_into_an_HTML_template/main.py` — the safe
  edition: conditional text injection (only slots present in the value
  mapping), change-tracking to avoid re-serialization, image-slot
  resolution and binary-asset replacement;
* `week02c_populate_HWPX_slots with_data/main.py` — an earlier variant:
  unconditional injection (absent slots are blanked), unconditional
  re-serialization, and insertion of a fresh text leaf when a range has
  no text leaf.

Embedding conventions
---------------------

An XML part is embedded as its document-order (preorder) flattening: a
`List Node`.  The nodes the engine inspects are kept with the attributes
the code reads:

* `Node.fieldBegin a` — a `hp:fieldBegin` marker.  `FBAttrs` carries the
  `name`, `id`, `type` and `fieldid` attributes (each `Option String`,
  `none` = attribute absent), plus `rowAddr`/`colAddr`: the result of the
  upward `_find_nearest_cell_addr` traversal, precomputed into the
  flattening (the tree structure above a begin marker is not otherwise
  needed by the engine).
* `Node.fieldEnd r` — a `hp:fieldEnd` marker with its `beginIDRef`.
* `Node.t s` — a `hp:t` plain-text leaf; lxml none-text is embedded as
  the empty string (the code treats them identically via or-defaulting and
  truthiness).
* `Node.pic refs` — a `hp:pic` element; `refs` is the document-order list
  of `binaryItemIDRef` attribute values of the `hc:img` descendants that
  carry that attribute (the only thing the code reads below a `hp:pic`).
* `Node.other tag` — any other element.

Begin/end markers and `hp:t` are childless in HWPX, so the XPath
`following::` axis from a marker coincides with greater flat index,
and the source insertion before the end node coincides with list insertion
directly before the flat index of the end marker.

Bytes of a container part are uninterpreted (`List Nat`).  Parsing and
serialization are performed by lxml in the source; they enter the
embedding as a `Codec` parameter: `parse` produces the flattened content
view used by the field operations, `parseAttrs` the attribute view of
all elements used by the binary-reference resolver, `dump` re-serializes
a content view, and `decodeText` models byte decoding to text with
errors ignored.  A Python exception raised by parsing/decoding is
modelled as `none`.  All theorems hold for every codec, and hence in
particular for the one realized by lxml.
-/

/-- Part contents: an uninterpreted byte string of the zip container. -/
abbrev Bytes := List Nat

/-- Text-value mapping (Python dict in insertion order). -/
abbrev Values := List (String × String)

/-- The empty string (lxml text `None` reads as this; it is also the
injected blank). -/
def noText : String := ""

/-- Character-level prefix test, modelling Python `str.startswith`. -/
def strStartsWith (s pre : String) : Bool :=
  List.isPrefixOf pre.data s.data

/-- Character-level suffix test, modelling Python `str.endswith`. -/
def strEndsWith (s suf : String) : Bool :=
  List.isSuffixOf suf.data s.data

/-- Character-level lower-casing, modelling Python `str.lower` on the
ASCII names handled by the program. -/
def lowerStr (s : String) : String :=
  String.mk (s.data.map Char.toLower)

/-- Whitespace trim on both ends, modelling Python `str.strip`. -/
def trimStr (s : String) : String :=
  String.mk (((s.data.dropWhile Char.isWhitespace).reverse.dropWhile Char.isWhitespace).reverse)

/-- Generic contiguous-sublist test, modelling Python `in` on `bytes`/`str`. -/
def subListOf {α : Type} [BEq α] (needle : List α) : List α → Bool
  | [] => needle.isEmpty
  | c :: rest => List.isPrefixOf needle (c :: rest) || subListOf needle rest

/-- `IMG_PREFIX` of the source: slot names with this prefix are image slots. -/
def imgPref : String := "IMG_"

/-- `STRIP_CLICK_HERE` of the source: the marker-stripping pass is disabled
by default. -/
def STRIP_CLICK_HERE : Bool := false

def clickHereTy : String := "CLICK_HERE"

def contentsPref : String := "Contents/"

def binDataPref : String := "BinData/"

def xmlSuffix : String := ".xml"

def hpfSuffix : String := ".hpf"

/-- `is_xml_path` of the source. -/
def is_xml_path (name : String) : Bool :=
  strEndsWith (lowerStr name) xmlSuffix

/-- Attributes of a `hp:fieldBegin` marker, plus the precomputed
`_find_nearest_cell_addr` result (see module docstring). -/
structure FBAttrs where
  name : Option String
  id : Option String
  ty : Option String
  fieldid : Option String
  rowAddr : Option Int
  colAddr : Option Int
deriving DecidableEq

/-- A node of the document-order flattening of one XML part. -/
inductive Node where
  | fieldBegin (a : FBAttrs)
  | fieldEnd (beginIDRef : Option String)
  | t (text : String)
  | pic (imgRefs : List String)
  | other (tag : String)
deriving DecidableEq

/-- Is the node a plain-text leaf (`hp:t`)? -/
def isTNode : Node → Bool
  | Node.t _ => true
  | _ => false

/-- Is the node the matching end marker (`hp:fieldEnd[@beginIDRef=$bid]`)? -/
def isEndFor (bid : String) : Node → Bool
  | Node.fieldEnd (some r) => r == bid
  | _ => false

/-- XPath filter `hp:fieldBegin[@name][@id]`: both attributes present. -/
def isNamedIdFB : Node → Bool
  | Node.fieldBegin a => a.name.isSome && a.id.isSome
  | _ => false

/-- Is the node a `hp:pic` element? -/
def isPicNode : Node → Bool
  | Node.pic _ => true
  | _ => false

/-- Lift a node predicate to `Option Node` (out of range = false). -/
def popt (p : Node → Bool) : Option Node → Bool
  | some n => p n
  | none => false

/-- First index `≥ idx` (scanning the given tail, whose head sits at `idx`)
whose node satisfies `p`. -/
def scanIdx (p : Node → Bool) : List Node → Nat → Option Nat
  | [], _ => none
  | n :: rest, idx => if p n then some idx else scanIdx p rest (idx + 1)

/-- `following::hp:fieldEnd[@beginIDRef=$bid][1]` as a flat index: the first
index after `i` holding the matching end marker. -/
def findEnd (d : List Node) (i : Nat) (bid : String) : Option Nat :=
  scanIdx (isEndFor bid) (d.drop (i + 1)) (i + 1)

/-- Indices of the begin markers the injector iterates over
(`.//hp:fieldBegin[@name][@id]`, in document order).  The week03a injector
never inserts or removes nodes, so the lxml element snapshot corresponds to
this fixed index list. -/
def fbIndices (d : List Node) : List Nat :=
  (List.range d.length).filter (fun i => popt isNamedIdFB d[i]?)

/-- The `hp:t` leaves strictly between the begin marker at `i` and its end
marker at `j`, in document order.  This is the flat rendering of the source
XPath `following::hp:t[following::hp:fieldEnd[@beginIDRef=$bid][1] = $end]`:
given that `j` is the first matching end after `i`, a `hp:t` satisfies the
filter exactly when its index lies strictly between `i` and `j`. -/
def tIndices (d : List Node) (i j : Nat) : List Nat :=
  (List.range d.length).filter
    (fun k => decide (i < k) && decide (k < j) && popt isTNode d[k]?)

/-- Text of the `hp:t` at index `k` (lxml none-text reads as empty). -/
def tTextAt (d : List Node) (k : Nat) : String :=
  match d[k]? with
  | some (Node.t s) => s
  | _ => ""

/-- week03a: write the target value into the first text leaf of the range
if it differs, setting the changed flag. -/
def writeFirstT (d : List Node) (k : Nat) (target : String) : List Node × Bool :=
  if tTextAt d k != target then (d.set k (Node.t target), true) else (d, false)

/-- week03a: blank every remaining text leaf of the range that has truthy
text, setting the changed flag. -/
def blankExtras : List Node → List Nat → List Node × Bool
  | d, [] => (d, false)
  | d, k :: ks =>
    let step := if tTextAt d k != "" then (d.set k (Node.t noText), true) else (d, false)
    let rest := blankExtras step.1 ks
    (rest.1, step.2 || rest.2)

/-- One iteration of the week03a injector loop body (`fill_fields_in_xml`,
lines 379–415) at the begin marker with flat index `i`. -/
def processOne (values : Values) (d : List Node) (i : Nat) : List Node × Bool :=
  match d[i]? with
  | some (Node.fieldBegin a) =>
    match a.name, a.id with
    | some nm, some bid =>
      if nm == "" || bid == "" then (d, false)
      else
        match values.lookup nm with
        | none => (d, false)
        | some target =>
          if strStartsWith nm imgPref then (d, false)
          else
            match findEnd d i bid with
            | none => (d, false)
            | some j =>
              match tIndices d i j with
              | [] => (d, false)
              | k0 :: ks =>
                let s1 := writeFirstT d k0 target
                let s2 := blankExtras s1.1 ks
                (s2.1, s1.2 || s2.2)
    | _, _ => (d, false)
  | _ => (d, false)

/-- One fold step of the injector pass: run the loop body on the current
document and accumulate the `changed` flag. -/
def fillStep (values : Values) (acc : List Node × Bool) (i : Nat) : List Node × Bool :=
  let r := processOne values acc.1 i
  (r.1, acc.2 || r.2)

/-- week03a `fill_fields_in_xml` at the document level: fold the loop body
over the snapshot of begin markers, threading the mutated document and the
`changed` flag. -/
def fillDoc (values : Values) (d : List Node) : List Node × Bool :=
  (fbIndices d).foldl (fillStep values) (d, false)

/-- Ids collected by `strip_clickhere_fields`: every begin marker whose
type attribute equals CLICK_HERE and whose id is present and truthy. -/
def chBeginIds (d : List Node) : List String :=
  d.filterMap
    (fun n =>
      match n with
      | Node.fieldBegin a =>
        if a.ty == some clickHereTy then
          match a.id with
          | some bid => if bid == "" then none else some bid
          | none => none
        else none
      | _ => none)

/-- A begin marker of type CLICK_HERE (removed regardless of id). -/
def isCHBegin : Node → Bool
  | Node.fieldBegin a => a.ty == some clickHereTy
  | _ => false

/-- `hp:fieldEnd[@beginIDRef]` whose back-reference is in the collected
id set. -/
def isEndRefIn (bids : List String) : Node → Bool
  | Node.fieldEnd (some r) => bids.contains r
  | _ => false

/-- week03a `strip_clickhere_fields` at the document level.  Removing a
childless marker element from the tree is removal of its single flat entry;
the `parent is not None` guards never fail for markers below the root.
Returns the stripped document and the `changed` flag. -/
def stripDoc (d : List Node) : List Node × Bool :=
  let bids := chBeginIds d
  let d1 := d.filter (fun n => !isCHBegin n)
  let c1 := d.any isCHBegin
  let d2 := if bids.isEmpty then d1 else d1.filter (fun n => !isEndRefIn bids n)
  let c2 := if bids.isEmpty then false else d1.any (isEndRefIn bids)
  (d2, c1 || c2)

/-- Begin markers scanned by `find_pic_binary_id_after_field`:
`.//hp:fieldBegin[@name=$nm][@id]`. -/
def fbIdxsNamed (d : List Node) (slot : String) : List Nat :=
  (List.range d.length).filter
    (fun i =>
      match d[i]? with
      | some (Node.fieldBegin a) => (a.name == some slot) && a.id.isSome
      | _ => false)

/-- First `hp:pic` after index `j`, returning its `hc:img` reference list. -/
def findFirstPic (d : List Node) (j : Nat) : Option (List String) :=
  match scanIdx isPicNode (d.drop (j + 1)) (j + 1) with
  | some k =>
    match d[k]? with
    | some (Node.pic refs) => some refs
    | _ => none
  | none => none

/-- One iteration of the `find_pic_binary_id_after_field` loop at begin
marker `i`: resolve the end marker, take the first following `hp:pic`, and
return the first descendant `hc:img[@binaryItemIDRef]` value. -/
def occPicRef (d : List Node) (i : Nat) : Option String :=
  match d[i]? with
  | some (Node.fieldBegin a) =>
    match a.id with
    | some bid =>
      if bid == "" then none
      else
        match findEnd d i bid with
        | none => none
        | some j =>
          match findFirstPic d j with
          | none => none
          | some refs => refs.head?
    | none => none
  | _ => none

/-- Scan the begin markers in document order, returning the first
successful `occPicRef` (the `return` inside the source loop). -/
def findPicScan (d : List Node) : List Nat → Option String
  | [] => none
  | i :: is =>
    match occPicRef d i with
    | some r => some r
    | none => findPicScan d is

/-- `find_pic_binary_id_after_field` at the document level. -/
def findPicDoc (d : List Node) (slot : String) : Option String :=
  findPicScan d (fbIdxsNamed d slot)

/-! ## week02c variant (`week02c_populate_HWPX_slots with_data/main.py`) -/

/-- week02c: blank every remaining text leaf of the range
(unconditionally). -/
def blankExtrasW2 (d : List Node) (ks : List Nat) : List Node :=
  ks.foldl (fun e k => e.set k (Node.t noText)) d

/-- Insertion of a node directly before flat index `j`
(`ctrl.insert(ctrl.index(end_node), t)`). -/
def insBefore (d : List Node) (j : Nat) (n : Node) : List Node :=
  d.take j ++ n :: d.drop j

/-- One iteration of the week02c injector loop body (`fill_fields_in_xml`,
lines 355–392).  Differences from week03a: a slot absent from the mapping
is injected with the empty string (dict get with empty default); there is
no image-slot
exclusion and no change tracking; when the range holds no text leaf a fresh
`hp:t` carrying the value is inserted directly before the end marker.
Returns the new document and the insertion position, if any. -/
def processOneW2 (values : Values) (d : List Node) (i : Nat) : List Node × Option Nat :=
  match d[i]? with
  | some (Node.fieldBegin a) =>
    match a.name, a.id with
    | some nm, some bid =>
      if nm == "" || bid == "" then (d, none)
      else
        let target := (values.lookup nm).getD noText
        match findEnd d i bid with
        | none => (d, none)
        | some j =>
          match tIndices d i j with
          | [] => (insBefore d j (Node.t target), some j)
          | k0 :: ks => (blankExtrasW2 (d.set k0 (Node.t target)) ks, none)
    | _, _ => (d, none)
  | _ => (d, none)

/-- week02c injector fold.  The source iterates an lxml element snapshot;
an insertion at flat position `j` shifts the flat index of every snapshot
element at position `≥ j` up by one, which the recursion applies to the
remaining index list.  The first argument is structural fuel; it is always
called with the length of the index list, which every step preserves
(mapping keeps the length), so the fuel-exhaustion branch is unreachable. -/
def processW2 (values : Values) : Nat → List Node → List Nat → List Node
  | _, d, [] => d
  | 0, d, _ :: _ => d
  | fuel + 1, d, i :: is =>
    let r := processOneW2 values d i
    match r.2 with
    | none => processW2 values fuel r.1 is
    | some j => processW2 values fuel r.1 (is.map (fun k => if j ≤ k then k + 1 else k))

/-- week02c `fill_fields_in_xml` at the document level. -/
def fillDocW2 (values : Values) (d : List Node) : List Node :=
  processW2 values (fbIndices d).length d (fbIndices d)

/-! ## Byte level: codecs, data URLs, binary-reference resolution, rewrite -/

/-- Attribute view of one element, as read by
`resolve_bindata_href_for_binary_item` (`@id`, `@href`, `@itemID`,
`@itemId`, `@binaryItemIDRef`). -/
structure AttrElem where
  id : Option String
  href : Option String
  itemID : Option String
  itemId : Option String
  binaryItemIDRef : Option String
deriving DecidableEq

/-- The lxml parsing/serialization boundary (see module docstring). -/
structure Codec where
  parse : Bytes → Option (List Node)
  parseAttrs : Bytes → Option (List AttrElem)
  dump : List Node → Bytes
  decodeText : Bytes → String

/-- week03a `fill_fields_in_xml` on part bytes: parse (an lxml exception is
`none`), run the injector, and re-serialize only when something changed —
otherwise the input bytes are returned untouched. -/
def fill_fields_in_xml (C : Codec) (xml_bytes : Bytes) (values : Values) :
    Option (Bytes × Bool) :=
  match C.parse xml_bytes with
  | none => none
  | some d =>
    let r := fillDoc values d
    if r.2 then some (C.dump r.1, true) else some (xml_bytes, false)

/-- week03a `strip_clickhere_fields` on part bytes. -/
def strip_clickhere_fields (C : Codec) (xml_bytes : Bytes) :
    Option (Bytes × Bool) :=
  match C.parse xml_bytes with
  | none => none
  | some d =>
    let r := stripDoc d
    if r.2 then some (C.dump r.1, true) else some (xml_bytes, false)

/-- `find_pic_binary_id_after_field` on part bytes (`none` covers both the
parse exception, caught by the only caller, and an unsuccessful scan). -/
def find_pic_binary_id_after_field (C : Codec) (xml_bytes : Bytes) (slot : String) :
    Option String :=
  match C.parse xml_bytes with
  | none => none
  | some d => findPicDoc d slot

def dataUrlPref : String := "data:"

def base64Word : String := "base64"

/-- Base64 value of one alphabet character. -/
def b64Val (c : Char) : Option Nat :=
  if 65 ≤ c.toNat && c.toNat ≤ 90 then some (c.toNat - 65)
  else if 97 ≤ c.toNat && c.toNat ≤ 122 then some (c.toNat - 97 + 26)
  else if 48 ≤ c.toNat && c.toNat ≤ 57 then some (c.toNat - 48 + 52)
  else if c.toNat == 43 then some 62
  else if c.toNat == 47 then some 63
  else none

/-- Decode base64 quads into bytes; padding (character code 61) is legal
only at the very end. -/
def b64Quads : List Char → Option (List Nat)
  | [] => some []
  | a :: b :: c :: d :: rest =>
    match b64Val a, b64Val b with
    | some va, some vb =>
      if c.toNat == 61 then
        if d.toNat == 61 && rest.isEmpty then some [va * 4 + vb / 16] else none
      else
        match b64Val c with
        | some vc =>
          if d.toNat == 61 then
            if rest.isEmpty then some [va * 4 + vb / 16, vb % 16 * 16 + vc / 4] else none
          else
            match b64Val d, b64Quads rest with
            | some vd, some tail =>
              some ((va * 4 + vb / 16) :: (vb % 16 * 16 + vc / 4) :: (vc % 4 * 64 + vd) :: tail)
            | _, _ => none
        | none => none
    | _, _ => none
  | _ => none

/-- `base64.b64decode` on the standard alphabet: characters outside the
alphabet are discarded, then complete quads are decoded; a malformed
remainder raises (= `none`). -/
def b64decode (s : List Char) : Option (List Nat) :=
  b64Quads (s.filter (fun c => (b64Val c).isSome || c.toNat == 61))

/-- Split at the first comma (code 44), modelling a single split; a
missing comma makes the two-element unpacking raise (= `none`). -/
def splitAtComma : List Char → Option (List Char × List Char)
  | [] => none
  | c :: rest =>
    if c.toNat == 44 then some ([], rest)
    else (splitAtComma rest).map (fun p => (c :: p.1, p.2))

/-- `decode_data_url` of the source.  The header regex is matched as a
prefix: a nonempty semicolon-free mime chunk after the data scheme,
followed by the base64 marker.  The mime is stripped and lower-cased; the
remainder after the first comma is base64 decoded.  Any failure raises in
the source (= `none` here).  (Code 59 is the semicolon.) -/
def decode_data_url (data_url : String) : Option (String × Bytes) :=
  if !strStartsWith data_url dataUrlPref then none
  else
    match splitAtComma data_url.data with
    | none => none
    | some (header, b64) =>
      let afterScheme := header.drop 5
      let mimeChars := afterScheme.takeWhile (fun c => !(c.toNat == 59))
      let rest := afterScheme.dropWhile (fun c => !(c.toNat == 59))
      if mimeChars.isEmpty then none
      else if !(List.isPrefixOf base64Word.data (rest.drop 1)) then none
      else
        match b64decode b64 with
        | none => none
        | some raw => some (lowerStr (trimStr (String.mk mimeChars)), raw)

def pngSuffix : String := "png"

def jpegSuffix : String := "jpeg"

def jpgSuffix : String := "jpg"

def bmpSuffix : String := "bmp"

/-- The media-type allow-list test of `generate_submit_hwpx` (line 593). -/
def mimeAllowed (mime : String) : Bool :=
  strEndsWith mime pngSuffix || strEndsWith mime jpegSuffix ||
    strEndsWith mime jpgSuffix || strEndsWith mime bmpSuffix

def binDataBack : String := "BinData\\"

/-- Does the href attribute contain a BinData path (slash or backslash
separated)? -/
def hrefHasBinData (h : String) : Bool :=
  subListOf binDataPref.data h.data || subListOf binDataBack.data h.data

/-- Replace every backslash by a slash (code 92 is backslash, 47 is
slash). -/
def normSlashes (h : String) : String :=
  String.mk (h.data.map (fun c => if c.toNat == 92 then Char.ofNat 47 else c))

/-- First structured resolution query: any element whose id attribute
equals the binary id and whose href attribute points into BinData,
returning the href of the first match. -/
def resolve1 (elems : List AttrElem) (bid : String) : Option String :=
  match elems.filter
      (fun e =>
        e.id == some bid &&
          match e.href with
          | some h => hrefHasBinData h
          | none => false) with
  | [] => none
  | e :: _ =>
    match e.href with
    | some h => if h == "" then none else some (normSlashes h)
    | none => none

/-- Second structured resolution query:
`//*[@itemID=$bid or @itemId=$bid or @binaryItemIDRef=$bid]`, scanning for
the first match whose `@href` is truthy and points into `BinData`. -/
def resolve2 (elems : List AttrElem) (bid : String) : Option String :=
  (elems.filterMap
      (fun e =>
        if e.itemID == some bid || e.itemId == some bid || e.binaryItemIDRef == some bid then
          match e.href with
          | some h => if h != "" && hrefHasBinData h then some (normSlashes h) else none
          | none => none
        else none)).head?

/-- Is the part eligible for resolution (`.xml` or `.hpf`)? -/
def isXmlOrHpf (path : String) : Bool :=
  is_xml_path path || strEndsWith (lowerStr path) hpfSuffix

/-- The DOM-based pass of `resolve_bindata_href_for_binary_item`: per part,
parse (exception = skip), then the two structured queries. -/
def resolveDomPass (C : Codec) (bid : String) : List (String × Bytes) → Option String
  | [] => none
  | (path, b) :: rest =>
    if !isXmlOrHpf path then resolveDomPass C bid rest
    else
      match C.parseAttrs b with
      | none => resolveDomPass C bid rest
      | some elems =>
        match resolve1 elems bid with
        | some h => some h
        | none =>
          match resolve2 elems bid with
          | some h => some h
          | none => resolveDomPass C bid rest

def binDataWord : String := "BinData"

/-- One character of the path-token run of the fallback regex: anything
except double quote (34), apostrophe (39), the less-than sign (60) and
whitespace. -/
def isTokChar (c : Char) : Bool :=
  !(c.toNat == 34 || c.toNat == 39 || c.toNat == 60 || c.toNat == 32 ||
      c.toNat == 9 || c.toNat == 10 || c.toNat == 13 || c.toNat == 11 || c.toNat == 12)

/-- Try to read a BinData path token at the head of the list: the word
BinData, one separator (slash 47 or backslash 92), then a nonempty run of
token characters. -/
def tokenAt (s : List Char) : Option (List Char) :=
  if List.isPrefixOf binDataWord.data s then
    match s.drop 7 with
    | c :: rest =>
      if c.toNat == 47 || c.toNat == 92 then
        let run := rest.takeWhile isTokChar
        if run.isEmpty then none else some (binDataWord.data ++ c :: run)
      else none
    | [] => none
  else none

/-- Leftmost BinData path-token occurrence. -/
def findToken : List Char → Option (List Char)
  | [] => none
  | c :: rest =>
    match tokenAt (c :: rest) with
    | some tk => some tk
    | none => findToken rest

/-- The dotall lazy fallback regex, searched: the leftmost position where
the escaped binary id occurs followed (anywhere later) by a BinData path
token, returning that first token. -/
def searchIdToken (bid : List Char) : List Char → Option (List Char)
  | [] => none
  | c :: rest =>
    if List.isPrefixOf bid (c :: rest) then
      match findToken ((c :: rest).drop bid.length) with
      | some tk => some tk
      | none => searchIdToken bid rest
    else searchIdToken bid rest

/-- The raw-text fallback pass of `resolve_bindata_href_for_binary_item`. -/
def resolveFallbackPass (C : Codec) (bid : String) : List (String × Bytes) → Option String
  | [] => none
  | (path, b) :: rest =>
    if !isXmlOrHpf path then resolveFallbackPass C bid rest
    else
      match searchIdToken bid.data (C.decodeText b).data with
      | some tk => some (normSlashes (String.mk tk))
      | none => resolveFallbackPass C bid rest

/-- `resolve_bindata_href_for_binary_item` of the source: the DOM pass over
all XML/HPF parts first, then the raw-text fallback pass. -/
def resolve_bindata_href_for_binary_item (C : Codec) (all_xml : List (String × Bytes))
    (bid : String) : Option String :=
  match resolveDomPass C bid all_xml with
  | some h => some h
  | none => resolveFallbackPass C bid all_xml

/-- A JSON payload value: a plain string (`str`/`int`/`float` become
`str(v)`), an image submission (`dict` carrying `dataUrl`), or anything
else (ignored by the split). -/
inductive PayloadValue where
  | text (s : String)
  | image (dataUrl : String)
  | otherVal
deriving DecidableEq

/-- The payload split of `generate_submit_hwpx` (lines 550–554): image
values are `IMG_`-prefixed keys with a `dataUrl` dict; scalar values become
text values; everything else is dropped. -/
def splitPayload : List (String × PayloadValue) → Values × List (String × String)
  | [] => ([], [])
  | (k, v) :: rest =>
    let r := splitPayload rest
    match v with
    | PayloadValue.image url =>
      if strStartsWith k imgPref then (r.1, (k, url) :: r.2) else r
    | PayloadValue.text s => ((k, s) :: r.1, r.2)
    | PayloadValue.otherVal => r

/-- The XML/HPF preload (`all_xml`) of `generate_submit_hwpx`. -/
def allXml (entries : List (String × Bytes)) : List (String × Bytes) :=
  entries.filter (fun e => is_xml_path e.1 || strEndsWith (lowerStr e.1) hpfSuffix)

/-- The per-image-slot scan of `generate_submit_hwpx` (lines 566–579):
the first Contents XML part for which `find_pic_binary_id_after_field`
returns a truthy id provides the binary id; an exception in the callee is
already `none`. -/
def imageBinaryIdForSlot (C : Codec) (oc : Bool) (slot : String) :
    List (String × Bytes) → Option String
  | [] => none
  | (path, b) :: rest =>
    if oc && !strStartsWith path contentsPref then imageBinaryIdForSlot C oc slot rest
    else if !is_xml_path path then imageBinaryIdForSlot C oc slot rest
    else
      match find_pic_binary_id_after_field C b slot with
      | some bid => if bid == "" then imageBinaryIdForSlot C oc slot rest else some bid
      | none => imageBinaryIdForSlot C oc slot rest

/-- `slot_to_bindata` construction (lines 564–586): per image slot in dict
order, find the binary id and resolve it to a `BinData` path. -/
def buildSlotToBindata (C : Codec) (oc : Bool) (axml : List (String × Bytes)) :
    List (String × String) → List (String × String)
  | [] => []
  | (slot, _) :: rest =>
    match imageBinaryIdForSlot C oc slot axml with
    | some bid =>
      match resolve_bindata_href_for_binary_item C axml bid with
      | some href => (slot, href) :: buildSlotToBindata C oc axml rest
      | none => buildSlotToBindata C oc axml rest
    | none => buildSlotToBindata C oc axml rest

/-- `slot_to_imgbytes` construction (lines 589–595): decode every image
submission; a bad data URL or a mime outside the allow-list raises and
aborts the whole generate call (= `none`). -/
def buildImgBytes : List (String × String) → Option (List (String × Bytes))
  | [] => some []
  | (slot, url) :: rest =>
    match decode_data_url url with
    | none => none
    | some (mime, raw) =>
      if mimeAllowed mime then
        match buildImgBytes rest with
        | some tail => some ((slot, raw) :: tail)
        | none => none
      else none

/-- Context threaded through the output-zip write loop. -/
structure Ctx where
  C : Codec
  enc : String → Bytes
  strip : Bool
  oc : Bool
  text_values : Values
  image_values : List (String × String)
  slot_to_bindata : List (String × String)
  slot_to_imgbytes : List (String × Bytes)

/-- The cheap byte pre-check (lines 611–620): does the part textually
contain any pending slot name, testing the UTF-8 encoding of the name as
a byte substring?  `enc` is the
UTF-8 encoding of a slot name. -/
def maybeRelated (ctx : Ctx) (data : Bytes) : Bool :=
  ctx.text_values.any (fun s => subListOf (ctx.enc s.1) data) ||
    ctx.image_values.any (fun s => subListOf (ctx.enc s.1) data)

/-- Candidate-XML processing (lines 622–635): inject, optionally strip,
write the new bytes only if something changed, and fall back to the
original bytes on any parse/serialize exception. -/
def processXmlPart (C : Codec) (strip : Bool) (tv : Values) (data : Bytes) : Bytes :=
  match fill_fields_in_xml C data tv with
  | none => data
  | some (new_data, changed1) =>
    if strip then
      match strip_clickhere_fields C new_data with
      | none => data
      | some (new_data2, changed2) => if changed1 || changed2 then new_data2 else data
    else if changed1 then new_data else data

/-- The `BinData` replacement scan (lines 641–649): first mapped slot whose
resolved path equals this part name and which has decoded bytes. -/
def replacementFor (s2i : List (String × Bytes)) (name : String) :
    List (String × String) → Option Bytes
  | [] => none
  | (slot, path) :: rest =>
    if path == name then
      match s2i.lookup slot with
      | some ib => some ib
      | none => replacementFor s2i name rest
    else replacementFor s2i name rest

/-- Emission of one part by the write loop (lines 603–652). -/
def emitPart (ctx : Ctx) (e : String × Bytes) : String × Bytes :=
  if is_xml_path e.1 && (!ctx.oc || strStartsWith e.1 contentsPref) then
    if maybeRelated ctx e.2 then
      (e.1, processXmlPart ctx.C ctx.strip ctx.text_values e.2)
    else e
  else if strStartsWith e.1 binDataPref then
    match replacementFor ctx.slot_to_imgbytes e.1 ctx.slot_to_bindata with
    | some b => (e.1, b)
    | none => e
  else e

/-- The output-zip write loop. -/
def writeLoop (ctx : Ctx) : List (String × Bytes) → List (String × Bytes)
  | [] => []
  | e :: rest => emitPart ctx e :: writeLoop ctx rest

/-- week03a `generate_submit_hwpx`.  The source container is the ordered
entry list; `enc` is UTF-8 encoding of slot names; a decode/mime failure
raises out of the whole call (= `none`). -/
def generate_submit_hwpx (C : Codec) (enc : String → Bytes) (strip : Bool)
    (entries : List (String × Bytes)) (payload : List (String × PayloadValue))
    (oc : Bool) : Option (List (String × Bytes)) :=
  let tv := (splitPayload payload).1
  let iv := (splitPayload payload).2
  let axml := allXml entries
  let s2b := buildSlotToBindata C oc axml iv
  match buildImgBytes iv with
  | none => none
  | some s2i =>
    some (writeLoop ⟨C, enc, strip, oc, tv, iv, s2b, s2i⟩ entries)

/-- One discovered slot occurrence (`SlotMapping` dataclass). -/
structure SlotMapping where
  slot_name : String
  xml_path : String
  field_begin_id : Option String
  field_id : Option String
  row_addr : Option Int
  col_addr : Option Int
deriving DecidableEq

/-- `extract_slot_mappings_from_xml` on a parsed part: every
`.//hp:fieldBegin[@name]` with truthy name yields one mapping carrying the
begin id, fieldid, and the nearest-enclosing-cell address. -/
def extractDoc (d : List Node) (xml_path : String) : List SlotMapping :=
  d.filterMap
    (fun n =>
      match n with
      | Node.fieldBegin a =>
        match a.name with
        | some nm =>
          if nm == "" then none
          else some ⟨nm, xml_path, a.id, a.fieldid, a.rowAddr, a.colAddr⟩
        | none => none
      | _ => none)

/-- `slot_map.setdefault(m.slot_name, []).append(asdict(m))`. -/
def slotMapInsert (m : List (String × List SlotMapping)) (s : SlotMapping) :
    List (String × List SlotMapping) :=
  match m with
  | [] => [(s.slot_name, [s])]
  | (k, l) :: rest =>
    if k == s.slot_name then (k, l ++ [s]) :: rest
    else (k, l) :: slotMapInsert rest s

/-- `build_slot_map_from_hwpx`: scan the container parts in order; keep XML
parts (under `Contents/` when `oc`); a part whose bytes fail to parse
raises inside `extract_slot_mappings_from_xml`, is caught, and contributes
nothing. -/
def build_slot_map (C : Codec) (entries : List (String × Bytes)) (oc : Bool) :
    List (String × List SlotMapping) :=
  entries.foldl
    (fun acc e =>
      if !is_xml_path e.1 then acc
      else if oc && !strStartsWith e.1 contentsPref then acc
      else
        match C.parse e.2 with
        | none => acc
        | some d => (extractDoc d e.1).foldl slotMapInsert acc)
    []

/-- week02c `fill_fields_in_xml` on part bytes: parse (exception = `none`)
and always re-serialize the injected document. -/
def fill_fields_in_xmlW2 (C : Codec) (xml_bytes : Bytes) (values : Values) :
    Option Bytes :=
  match C.parse xml_bytes with
  | none => none
  | some d => some (C.dump (fillDocW2 values d))

/-- week02c `generate_submit_hwpx` (lines 440–475): every Contents XML part
is injected and re-serialized (the strip call is commented out in the
source); an exception keeps the original bytes; everything else is copied
verbatim. -/
def generate_submit_hwpxW2 (C : Codec) (entries : List (String × Bytes))
    (values : Values) (oc : Bool) : List (String × Bytes) :=
  entries.map
    (fun e =>
      if is_xml_path e.1 && (!oc || strStartsWith e.1 contentsPref) then
        match fill_fields_in_xmlW2 C e.2 values with
        | some filled => (e.1, filled)
        | none => e
      else e)

/-- Well-formedness of a `CLICK_HERE` begin marker: it carries a truthy id
(so that the strip pass can pair it with its end marker). -/
def chBeginOk : Node → Bool
  | Node.fieldBegin a =>
    if a.ty == some clickHereTy then
      match a.id with
      | some bid => bid != ""
      | none => false
    else true
  | _ => true

/-- The slot (if any) whose resolved `BinData` path makes the replacement
scan fire for the given part name — the same scan as `replacementFor`,
reporting the slot instead of the bytes. -/
def usedSlotFor (s2i : List (String × Bytes)) (name : String) :
    List (String × String) → Option String
  | [] => none
  | (slot, path) :: rest =>
    if path == name then
      match s2i.lookup slot with
      | some _ => some slot
      | none => usedSlotFor s2i name rest
    else usedSlotFor s2i name rest

/-- Is the image submission one that `generate_submit_hwpx` rejects by
raising (bad data URL, or declared media type outside the allow-list)? -/
def badImage (su : String × String) : Bool :=
  match decode_data_url su.2 with
  | none => true
  | some (mime, _) => !mimeAllowed mime

/-- All begin/end marker ranges of a document: for each begin marker with
present name and truthy id, the pair (begin index, matching end index)
when the matching end exists. -/
def rangesOf (d : List Node) : List (Nat × Nat) :=
  (fbIndices d).filterMap
    (fun i =>
      match d[i]? with
      | some (Node.fieldBegin a) =>
        match a.id with
        | some bid =>
          if bid == "" then none else (findEnd d i bid).map (fun j => (i, j))
        | none => none
      | _ => none)

/-- Marker ranges are pairwise non-overlapping (distinct begin markers have
disjoint begin-to-end spans) — the well-formedness that real HWPX
placeholder fields satisfy. -/
def RangesDisjoint (d : List Node) : Prop :=
  ∀ r₁ ∈ rangesOf d, ∀ r₂ ∈ rangesOf d, r₁.1 ≠ r₂.1 → r₁.2 ≤ r₂.1 ∨ r₂.2 ≤ r₁.1

/-- Documents related by changing only the text of `hp:t` leaves (the only
mutation the week03a injector performs). -/
def TOnly (d e : List Node) : Prop :=
  d.length = e.length ∧
    ∀ k : Nat, e[k]? = d[k]? ∨
      ∃ s s', d[k]? = some (Node.t s) ∧ e[k]? = some (Node.t s')

/-- A predicate that does not distinguish `hp:t` leaves by their text. -/
def tBlind (p : Node → Bool) : Prop :=
  ∀ s s', p (Node.t s) = p (Node.t s')

/-- Eligibility of a begin marker to write at position `k` during the
week03a injection pass: every guard of the loop body passes and `k` lies
strictly inside the begin-to-end range. -/
def WritesInto (values : Values) (d : List Node) (i' k : Nat) : Prop :=
  ∃ a nm bid target j,
    d[i']? = some (Node.fieldBegin a) ∧ a.name = some nm ∧ a.id = some bid ∧
      nm ≠ "" ∧ bid ≠ "" ∧ values.lookup nm = some target ∧
      strStartsWith nm imgPref = false ∧ findEnd d i' bid = some j ∧
      i' < k ∧ k < j

/-! ## Concrete instances used by the closed statements below -/

def nameSlot : String := "NAME"

def slotA : String := "A"

def slotB : String := "B"

def slotN : String := "N"

def slotS : String := "S"

def imgPhoto : String := "IMG_PHOTO"

def imgX : String := "IMG_X"

def image1 : String := "image1"

def id1 : String := "1"

def id2 : String := "2"

def vAlice : String := "Alice"

def vV : String := "v"

def vW : String := "w"

def tHello : String := "hello"

def tA : String := "a"

def tB : String := "b"

def tX : String := "x"

def tY : String := "y"

def pTag : String := "p"

def partMain : String := "Contents/section0.xml"

def partBad : String := "Contents/bad.xml"

def partBin : String := "BinData/image1.png"

def partVer : String := "version.xml"

def urlPng : String := "data:image/png;base64,AAAA"

def urlGif : String := "data:image/gif;base64,AAAA"

/-- Begin marker with name and id only. -/
def mkFB (nm bid : Option String) : Node :=
  Node.fieldBegin ⟨nm, bid, none, none, none, none⟩

/-- Begin marker with name, id and type. -/
def mkFBty (nm bid ty : Option String) : Node :=
  Node.fieldBegin ⟨nm, bid, ty, none, none, none⟩

def doc1 : List Node :=
  [mkFB (some nameSlot) (some id1), Node.t tA, Node.t tB, Node.fieldEnd (some id1)]

def vals1 : Values := [(nameSlot, vAlice)]

def doc4 : List Node :=
  [mkFB (some slotA) (some id1), Node.t tX, Node.fieldEnd (some id1),
    mkFB (some slotB) (some id2), Node.t tY, Node.fieldEnd (some id2)]

def vals4 : Values := [(slotB, vV)]

def doc6 : List Node :=
  [mkFB (some slotA) (some id1), mkFB (some slotB) (some id2), Node.t tX,
    Node.fieldEnd (some id2)]

def vals6 : Values := [(slotA, vV), (slotB, vW)]

def doc7 : List Node := [mkFB (some slotN) (some id1), Node.fieldEnd (some id1)]

def vals7 : Values := [(slotN, vV)]

def doc9 : List Node :=
  [mkFBty (some slotS) (some id1) (some clickHereTy), Node.t tX,
    Node.fieldEnd (some id1), Node.other pTag]

def docA : List Node :=
  [mkFB (some nameSlot) (some id1), Node.t tHello, Node.fieldEnd (some id1)]

def docABlank : List Node :=
  [mkFB (some nameSlot) (some id1), Node.t noText, Node.fieldEnd (some id1)]

def docImg : List Node :=
  [mkFB (some imgPhoto) (some id2), Node.fieldEnd (some id2), Node.pic [image1]]

/-- Codec whose parses always raise: used where parsing must fail. -/
def trivialCodec : Codec :=
  ⟨fun _ => none, fun _ => none, fun _ => [], fun _ => ""⟩

/-- Codec parsing everything as the empty document. -/
def unitCodec : Codec :=
  ⟨fun _ => some [], fun _ => none, fun _ => [], fun _ => ""⟩

/-- Codec for the image-replacement instance: byte `[0]` is the section
with the image slot, and the attribute view maps `image1` to the
`BinData/image1.png` href. -/
def cx3 : Codec :=
  ⟨fun b => if b == [0] then some docImg else none,
    fun b => if b == [0] then some [⟨some image1, some partBin, none, none, none⟩] else none,
    fun _ => [], fun _ => ""⟩

/-- Codec for the week02c no-op-rewrite instance: byte `[0]` parses to
`docA`; serialization of the blanked document yields `[1]`. -/
def cw2 : Codec :=
  ⟨fun b => if b == [0] then some docA else none,
    fun _ => none,
    fun d => if d == docABlank then [1] else [9],
    fun _ => ""⟩

/-- UTF-8 encoding of slot names (uninterpreted by all theorems). -/
def enc0 : String → Bytes := fun s => s.data.map Char.toNat

def entries3 : List (String × Bytes) := [(partMain, [0]), (partBin, [7]), (partVer, [9])]

def payload3 : List (String × PayloadValue) := [(imgPhoto, PayloadValue.image urlPng)]

def entries5 : List (String × Bytes) := [(partMain, [0])]

def payload5 : List (String × PayloadValue) :=
  [(nameSlot, PayloadValue.text vV), (imgX, PayloadValue.image urlGif)]

def entriesW2 : List (String × Bytes) := [(partMain, [0])]

def entries8pre : List (String × Bytes) := [(partMain, [3])]

def entry8bad : String × Bytes := (partBad, [4])

def ctx8 : Ctx := ⟨trivialCodec, enc0, STRIP_CLICK_HERE, true, [], [], [], []⟩

def ctx10 : Ctx :=
  ⟨trivialCodec, enc0, STRIP_CLICK_HERE, true, [], [(imgPhoto, urlPng)],
    [(imgPhoto, partBin)], [(imgPhoto, [0, 0, 0])]⟩

def entries10 : List (String × Bytes) := [(partBin, [7]), (partVer, [9])]

/-! # Lemmas and theorems -/

theorem popt_lt_length {p : Node → Bool} {l : List Node} {i : Nat}
    (h : popt p l[i]? = true) : i < l.length := by
  cases hl : l[i]? with
  | none => rw [hl] at h; exact absurd h (by simp [popt])
  | some n => exact (List.getElem?_eq_some.mp hl).1

theorem scanIdx_some_iff (p : Node → Bool) :
    ∀ (l : List Node) (i j : Nat),
      scanIdx p l i = some j ↔
        i ≤ j ∧ popt p l[j - i]? = true ∧
          ∀ m : Nat, m < j - i → popt p l[m]? = false := by
  intro l
  induction l with
  | nil =>
    intro i j
    simp only [scanIdx]
    constructor
    · intro h; exact absurd h (by simp)
    · rintro ⟨-, h2, -⟩
      exact absurd h2 (by simp [popt])
  | cons n rest ih =>
    intro i j
    simp only [scanIdx]
    by_cases hp : p n = true
    · rw [if_pos hp]
      constructor
      · intro h
        have hji : j = i := by
          have := Option.some.inj h; omega
        subst hji
        refine ⟨le_refl _, ?_, ?_⟩
        · simpa [popt, Nat.sub_self] using hp
        · intro m hm; omega
      · rintro ⟨h1, h2, h3⟩
        have hji : j = i := by
          by_contra hne
          have hlt : 0 < j - i := by omega
          have := h3 0 hlt
          rw [List.getElem?_cons_zero] at this
          simp [popt, hp] at this
        subst hji; rfl
    · rw [if_neg hp]
      rw [ih (i + 1) j]
      have hpn : p n = false := by
        cases hpe : p n
        · rfl
        · exact absurd hpe hp
      constructor
      · rintro ⟨h1, h2, h3⟩
        have hij : i < j := by omega
        refine ⟨by omega, ?_, ?_⟩
        · have : j - i = (j - (i + 1)) + 1 := by omega
          rw [this, List.getElem?_cons_succ]
          exact h2
        · intro m hm
          cases m with
          | zero => simp [popt, List.getElem?_cons_zero, hpn]
          | succ m' =>
            rw [List.getElem?_cons_succ]
            exact h3 m' (by omega)
      · rintro ⟨h1, h2, h3⟩
        have hij : i < j := by
          by_contra hle
          have hji : j = i := by omega
          subst hji
          rw [Nat.sub_self, List.getElem?_cons_zero] at h2
          simp [popt, hpn] at h2
        refine ⟨by omega, ?_, ?_⟩
        · have : j - i = (j - (i + 1)) + 1 := by omega
          rw [this, List.getElem?_cons_succ] at h2
          exact h2
        · intro m hm
          have := h3 (m + 1) (by omega)
          rw [List.getElem?_cons_succ] at this
          exact this

theorem scanIdx_none_iff (p : Node → Bool) :
    ∀ (l : List Node) (i : Nat),
      scanIdx p l i = none ↔ ∀ m : Nat, popt p l[m]? = false := by
  intro l
  induction l with
  | nil =>
    intro i
    constructor
    · intro _ m; simp [popt]
    · intro _; rfl
  | cons n rest ih =>
    intro i
    simp only [scanIdx]
    by_cases hp : p n = true
    · rw [if_pos hp]
      constructor
      · intro h; exact absurd h (by simp)
      · intro h
        have := h 0
        rw [List.getElem?_cons_zero] at this
        simp [popt, hp] at this
    · rw [if_neg hp]
      have hpn : p n = false := by
        cases hpe : p n
        · rfl
        · exact absurd hpe hp
      rw [ih (i + 1)]
      constructor
      · intro h m
        cases m with
        | zero => simp [popt, List.getElem?_cons_zero, hpn]
        | succ m' => rw [List.getElem?_cons_succ]; exact h m'
      · intro h m
        have := h (m + 1)
        rw [List.getElem?_cons_succ] at this
        exact this

theorem findEnd_some_iff (d : List Node) (i : Nat) (bid : String) (j : Nat) :
    findEnd d i bid = some j ↔
      i < j ∧ popt (isEndFor bid) d[j]? = true ∧
        ∀ m : Nat, i < m → m < j → popt (isEndFor bid) d[m]? = false := by
  unfold findEnd
  rw [scanIdx_some_iff]
  constructor
  · rintro ⟨h1, h2, h3⟩
    rw [List.getElem?_drop] at h2
    have hj : i + 1 + (j - (i + 1)) = j := by omega
    rw [hj] at h2
    refine ⟨by omega, h2, ?_⟩
    intro m hm1 hm2
    have := h3 (m - (i + 1)) (by omega)
    rw [List.getElem?_drop] at this
    have hm : i + 1 + (m - (i + 1)) = m := by omega
    rw [hm] at this
    exact this
  · rintro ⟨h1, h2, h3⟩
    refine ⟨by omega, ?_, ?_⟩
    · rw [List.getElem?_drop]
      have hj : i + 1 + (j - (i + 1)) = j := by omega
      rw [hj]; exact h2
    · intro m hm
      rw [List.getElem?_drop]
      exact h3 (i + 1 + m) (by omega) (by omega)

theorem findEnd_none_iff (d : List Node) (i : Nat) (bid : String) :
    findEnd d i bid = none ↔
      ∀ m : Nat, i < m → popt (isEndFor bid) d[m]? = false := by
  unfold findEnd
  rw [scanIdx_none_iff]
  constructor
  · intro h m hm
    have := h (m - (i + 1))
    rw [List.getElem?_drop] at this
    have hm' : i + 1 + (m - (i + 1)) = m := by omega
    rw [hm'] at this
    exact this
  · intro h m
    rw [List.getElem?_drop]
    exact h (i + 1 + m) (by omega)

theorem findEnd_congr {d e : List Node} {bid : String}
    (h : ∀ k : Nat, popt (isEndFor bid) e[k]? = popt (isEndFor bid) d[k]?)
    (i : Nat) : findEnd e i bid = findEnd d i bid := by
  cases hd : findEnd d i bid with
  | none =>
    cases he : findEnd e i bid with
    | none => rfl
    | some j =>
      obtain ⟨h1, h2, -⟩ := (findEnd_some_iff e i bid j).mp he
      rw [h j] at h2
      have := (findEnd_none_iff d i bid).mp hd j h1
      rw [this] at h2
      exact absurd h2 (by simp)
  | some j =>
    cases he : findEnd e i bid with
    | none =>
      obtain ⟨h1, h2, -⟩ := (findEnd_some_iff d i bid j).mp hd
      have := (findEnd_none_iff e i bid).mp he j h1
      rw [h j, h2] at this
      exact absurd this (by simp)
    | some j' =>
      obtain ⟨h1, h2, h3⟩ := (findEnd_some_iff d i bid j).mp hd
      obtain ⟨h1', h2', h3'⟩ := (findEnd_some_iff e i bid j').mp he
      rcases lt_trichotomy j' j with hlt | heq | hgt
      · have := h3 j' h1' hlt
        rw [h j'] at h2'
        rw [this] at h2'
        exact absurd h2' (by simp)
      · rw [heq]
      · have := h3' j h1 hgt
        rw [h j, h2] at this
        exact absurd this (by simp)

theorem mem_fbIndices_iff (d : List Node) (i : Nat) :
    i ∈ fbIndices d ↔ popt isNamedIdFB d[i]? = true := by
  unfold fbIndices
  rw [List.mem_filter, List.mem_range]
  constructor
  · rintro ⟨-, h⟩; exact h
  · intro h; exact ⟨popt_lt_length h, h⟩

theorem fbIndices_nodup (d : List Node) : (fbIndices d).Nodup :=
  (List.nodup_range _).filter _

theorem mem_tIndices_iff (d : List Node) (i j k : Nat) :
    k ∈ tIndices d i j ↔ i < k ∧ k < j ∧ popt isTNode d[k]? = true := by
  unfold tIndices
  rw [List.mem_filter, List.mem_range]
  constructor
  · rintro ⟨-, h⟩
    rw [Bool.and_eq_true, Bool.and_eq_true] at h
    exact ⟨of_decide_eq_true h.1.1, of_decide_eq_true h.1.2, h.2⟩
  · rintro ⟨h1, h2, h3⟩
    refine ⟨popt_lt_length h3, ?_⟩
    rw [Bool.and_eq_true, Bool.and_eq_true]
    exact ⟨⟨decide_eq_true h1, decide_eq_true h2⟩, h3⟩

theorem tIndices_nodup (d : List Node) (i j : Nat) : (tIndices d i j).Nodup :=
  (List.nodup_range _).filter _

theorem TOnly_refl (d : List Node) : TOnly d d :=
  ⟨rfl, fun _ => Or.inl rfl⟩

theorem TOnly_trans {d e f : List Node} (h1 : TOnly d e) (h2 : TOnly e f) :
    TOnly d f := by
  refine ⟨h1.1.trans h2.1, fun k => ?_⟩
  rcases h2.2 k with hf | ⟨s, s', hs, hs'⟩
  · rcases h1.2 k with he | ⟨u, u', hu, hu'⟩
    · exact Or.inl (hf.trans he)
    · exact Or.inr ⟨u, u', hu, hf.trans hu'⟩
  · rcases h1.2 k with he | ⟨u, u', hu, hu'⟩
    · exact Or.inr ⟨s, s', he ▸ hs, hs'⟩
    · rw [hu'] at hs
      exact Or.inr ⟨u, s', hu, hs'⟩

theorem TOnly_popt_eq {d e : List Node} (h : TOnly d e) {p : Node → Bool}
    (hp : tBlind p) (k : Nat) : popt p e[k]? = popt p d[k]? := by
  rcases h.2 k with he | ⟨s, s', hs, hs'⟩
  · rw [he]
  · rw [hs, hs']
    exact hp s' s

theorem tBlind_isEndFor (bid : String) : tBlind (isEndFor bid) :=
  fun _ _ => rfl

theorem tBlind_isNamedIdFB : tBlind isNamedIdFB :=
  fun _ _ => rfl

theorem tBlind_isTNode : tBlind isTNode :=
  fun _ _ => rfl

theorem TOnly_nonT {d e : List Node} (h : TOnly d e) (k : Nat)
    (hk : popt isTNode d[k]? = false) : e[k]? = d[k]? := by
  rcases h.2 k with he | ⟨s, s', hs, -⟩
  · exact he
  · rw [hs] at hk
    simp [popt, isTNode] at hk

theorem TOnly_fb_eq {d e : List Node} (h : TOnly d e) {k : Nat} {a : FBAttrs}
    (he : e[k]? = some (Node.fieldBegin a)) :
    d[k]? = some (Node.fieldBegin a) := by
  rcases h.2 k with heq | ⟨s, s', -, hs'⟩
  · rw [← heq, he]
  · rw [he] at hs'
    exact absurd hs' (by simp)

theorem popt_isT_elim {d : List Node} {k : Nat}
    (h : popt isTNode d[k]? = true) : d[k]? = some (Node.t (tTextAt d k)) := by
  cases hk : d[k]? with
  | none => rw [hk] at h; simp [popt] at h
  | some n =>
    cases n with
    | t s => rw [tTextAt, hk]
    | fieldBegin a => rw [hk] at h; simp [popt, isTNode] at h
    | fieldEnd r => rw [hk] at h; simp [popt, isTNode] at h
    | pic rs => rw [hk] at h; simp [popt, isTNode] at h
    | other tg => rw [hk] at h; simp [popt, isTNode] at h

theorem TOnly_set {d : List Node} {k : Nat} {s : String}
    (hk : popt isTNode d[k]? = true) : TOnly d (d.set k (Node.t s)) := by
  refine ⟨(List.length_set d k _).symm, fun m => ?_⟩
  by_cases hm : k = m
  · subst hm
    refine Or.inr ⟨tTextAt d k, s, popt_isT_elim hk, ?_⟩
    exact List.getElem?_set_self (popt_lt_length hk)
  · exact Or.inl (List.getElem?_set_ne hm)

theorem writeFirstT_TOnly {d : List Node} {k : Nat} {target : String}
    (hk : popt isTNode d[k]? = true) : TOnly d (writeFirstT d k target).1 := by
  unfold writeFirstT
  split
  · exact TOnly_set hk
  · exact TOnly_refl d

theorem writeFirstT_outside {d : List Node} {k : Nat} {target : String}
    {m : Nat} (hm : m ≠ k) : (writeFirstT d k target).1[m]? = d[m]? := by
  unfold writeFirstT
  split
  · exact List.getElem?_set_ne (fun h => hm h.symm)
  · rfl

theorem writeFirstT_effect {d : List Node} {k : Nat} {target : String}
    (hk : popt isTNode d[k]? = true) :
    (writeFirstT d k target).1[k]? = some (Node.t target) := by
  unfold writeFirstT
  split
  · exact List.getElem?_set_self (popt_lt_length hk)
  · rename_i hne
    have heq : tTextAt d k = target := by
      by_contra hcon
      exact hne (bne_iff_ne.mpr hcon)
    rw [popt_isT_elim hk, heq]

theorem blankExtras_TOnly :
    ∀ (ks : List Nat) (d : List Node),
      (∀ k ∈ ks, popt isTNode d[k]? = true) → TOnly d (blankExtras d ks).1 := by
  intro ks
  induction ks with
  | nil => intro d _; exact TOnly_refl d
  | cons k ks ih =>
    intro d h
    simp only [blankExtras]
    have hstep :
        TOnly d (if tTextAt d k != "" then (d.set k (Node.t noText), true) else (d, false)).1 := by
      split
      · exact TOnly_set (h k (List.mem_cons.mpr (Or.inl rfl)))
      · exact TOnly_refl d
    refine TOnly_trans hstep (ih _ ?_)
    intro k' hk'
    rw [TOnly_popt_eq hstep tBlind_isTNode k']
    exact h k' (List.mem_cons.mpr (Or.inr hk'))

theorem blankExtras_outside :
    ∀ (ks : List Nat) (d : List Node) (m : Nat), m ∉ ks →
      (blankExtras d ks).1[m]? = d[m]? := by
  intro ks
  induction ks with
  | nil => intro d m _; rfl
  | cons k ks ih =>
    intro d m hm
    simp only [blankExtras]
    have hmk : m ≠ k := fun h => hm (List.mem_cons.mpr (Or.inl h))
    have hms : m ∉ ks := fun h => hm (List.mem_cons.mpr (Or.inr h))
    rw [ih _ m hms]
    split
    · exact List.getElem?_set_ne (fun h => hmk h.symm)
    · rfl

theorem blankExtras_effect :
    ∀ (ks : List Nat) (d : List Node), ks.Nodup →
      (∀ k ∈ ks, popt isTNode d[k]? = true) →
      ∀ k ∈ ks, (blankExtras d ks).1[k]? = some (Node.t noText) := by
  intro ks
  induction ks with
  | nil => intro d _ _ k hk; exact absurd hk (List.not_mem_nil k)
  | cons k0 ks ih =>
    intro d hnd h k hk
    have hnd' := List.nodup_cons.mp hnd
    simp only [blankExtras]
    rcases List.mem_cons.mp hk with heq | hmem
    · subst heq
      rw [blankExtras_outside ks _ k hnd'.1]
      split
      · exact List.getElem?_set_self (popt_lt_length (h k (List.mem_cons.mpr (Or.inl rfl))))
      · rename_i hne
        have hk0 := h k (List.mem_cons.mpr (Or.inl rfl))
        have heq : tTextAt d k = "" := by
          by_contra hcon
          exact hne (bne_iff_ne.mpr hcon)
        rw [popt_isT_elim hk0, heq]
        rfl
    · have hstep :
          TOnly d (if tTextAt d k0 != "" then (d.set k0 (Node.t noText), true) else (d, false)).1 := by
        split
        · exact TOnly_set (h k0 (List.mem_cons.mpr (Or.inl rfl)))
        · exact TOnly_refl d
      refine ih _ hnd'.2 ?_ k hmem
      intro k' hk'
      rw [TOnly_popt_eq hstep tBlind_isTNode k']
      exact h k' (List.mem_cons.mpr (Or.inr hk'))

theorem processOne_writes (values : Values) (d : List Node) (i : Nat) (a : FBAttrs)
    (nm bid target : String) (j k0 : Nat) (ks : List Nat)
    (hfb : d[i]? = some (Node.fieldBegin a)) (hnm : a.name = some nm)
    (hbid : a.id = some bid) (hg : (nm == "" || bid == "") = false)
    (hlk : values.lookup nm = some target)
    (himg : strStartsWith nm imgPref = false)
    (hend : findEnd d i bid = some j) (hts : tIndices d i j = k0 :: ks) :
    processOne values d i =
      ((blankExtras (writeFirstT d k0 target).1 ks).1,
        (writeFirstT d k0 target).2 || (blankExtras (writeFirstT d k0 target).1 ks).2) := by
  simp only [processOne, hfb, hnm, hbid, hg, hlk, himg, hend, hts]
  simp

theorem processOne_absent (values : Values) (d : List Node) (i : Nat) (a : FBAttrs)
    (nm bid : String)
    (hfb : d[i]? = some (Node.fieldBegin a)) (hnm : a.name = some nm)
    (hbid : a.id = some bid) (hg : (nm == "" || bid == "") = false)
    (hlk : values.lookup nm = none) :
    processOne values d i = (d, false) := by
  simp only [processOne, hfb, hnm, hbid, hg, hlk]
  simp

theorem processOne_noend (values : Values) (d : List Node) (i : Nat) (a : FBAttrs)
    (nm bid target : String)
    (hfb : d[i]? = some (Node.fieldBegin a)) (hnm : a.name = some nm)
    (hbid : a.id = some bid) (hg : (nm == "" || bid == "") = false)
    (hlk : values.lookup nm = some target)
    (himg : strStartsWith nm imgPref = false)
    (hend : findEnd d i bid = none) :
    processOne values d i = (d, false) := by
  simp only [processOne, hfb, hnm, hbid, hg, hlk, himg, hend]
  simp

theorem processOne_nilvals (d : List Node) (i : Nat) :
    processOne [] d i = (d, false) := by
  unfold processOne
  repeat' split
  all_goals simp_all [List.lookup_nil]

theorem processOne_TOnly (values : Values) (d : List Node) (i : Nat) :
    TOnly d (processOne values d i).1 := by
  unfold processOne
  repeat' split
  all_goals try exact TOnly_refl d
  rename_i hts
  dsimp only
  have hk0 : _ ∈ tIndices d _ _ := hts ▸ List.mem_cons.mpr (Or.inl rfl)
  have hk0T := ((mem_tIndices_iff _ _ _ _).mp hk0).2.2
  refine TOnly_trans (writeFirstT_TOnly hk0T) (blankExtras_TOnly _ _ ?_)
  intro k' hk'
  have hk'mem : k' ∈ tIndices d _ _ := hts ▸ List.mem_cons.mpr (Or.inr hk')
  have hk'T := ((mem_tIndices_iff _ _ _ _).mp hk'mem).2.2
  rw [TOnly_popt_eq (writeFirstT_TOnly hk0T) tBlind_isTNode k']
  exact hk'T

theorem processOne_out (values : Values) (d : List Node) (i' k : Nat)
    (h : ¬ WritesInto values d i' k) :
    (processOne values d i').1[k]? = d[k]? := by
  cases hfb : d[i']? with
  | none => simp [processOne, hfb]
  | some n =>
    cases n with
    | fieldEnd r => simp [processOne, hfb]
    | t s => simp [processOne, hfb]
    | pic rs => simp [processOne, hfb]
    | other tg => simp [processOne, hfb]
    | fieldBegin a =>
      cases hnm : a.name with
      | none => simp [processOne, hfb, hnm]
      | some nm =>
        cases hbid : a.id with
        | none => simp [processOne, hfb, hnm, hbid]
        | some bid =>
          cases hg : (nm == "" || bid == "") with
          | true => simp [processOne, hfb, hnm, hbid, hg]
          | false =>
            cases hlk : values.lookup nm with
            | none => simp [processOne, hfb, hnm, hbid, hg, hlk]
            | some target =>
              cases himg : strStartsWith nm imgPref with
              | true => simp [processOne, hfb, hnm, hbid, hg, hlk, himg]
              | false =>
                cases hend : findEnd d i' bid with
                | none => simp [processOne, hfb, hnm, hbid, hg, hlk, himg, hend]
                | some j =>
                  cases hts : tIndices d i' j with
                  | nil => simp [processOne, hfb, hnm, hbid, hg, hlk, himg, hend, hts]
                  | cons k0 ks =>
                    rw [processOne_writes values d i' a nm bid target j k0 ks hfb hnm hbid hg
                      hlk himg hend hts]
                    have hnin : ¬(i' < k ∧ k < j) := by
                      intro hc
                      apply h
                      refine ⟨a, nm, bid, target, j, hfb, hnm, hbid, ?_, ?_, hlk, himg, hend,
                        hc.1, hc.2⟩
                      · intro he; rw [he] at hg; simp at hg
                      · intro he; rw [he] at hg; simp at hg
                    have hk0mem : k0 ∈ tIndices d i' j := by
                      rw [hts]; exact List.mem_cons.mpr (Or.inl rfl)
                    have hk0b := (mem_tIndices_iff d i' j k0).mp hk0mem
                    have hkne : k ≠ k0 := by
                      intro he
                      exact hnin ⟨he ▸ hk0b.1, he ▸ hk0b.2.1⟩
                    have hknotks : k ∉ ks := by
                      intro hkks
                      have hkmem : k ∈ tIndices d i' j := by
                        rw [hts]; exact List.mem_cons.mpr (Or.inr hkks)
                      have hb := (mem_tIndices_iff d i' j k).mp hkmem
                      exact hnin ⟨hb.1, hb.2.1⟩
                    dsimp only
                    rw [blankExtras_outside ks _ k hknotks, writeFirstT_outside hkne]

theorem TOnly_writesInto_iff {d e : List Node} (h : TOnly d e) (values : Values)
    (i' k : Nat) : WritesInto values e i' k ↔ WritesInto values d i' k := by
  unfold WritesInto
  constructor
  · rintro ⟨a, nm, bid, target, j, hfb, hnm, hbid, h1, h2, h3, h4, hend, h5, h6⟩
    refine ⟨a, nm, bid, target, j, TOnly_fb_eq h hfb, hnm, hbid, h1, h2, h3, h4, ?_, h5, h6⟩
    rw [← findEnd_congr (fun m => TOnly_popt_eq h (tBlind_isEndFor bid) m) i', hend]
  · rintro ⟨a, nm, bid, target, j, hfb, hnm, hbid, h1, h2, h3, h4, hend, h5, h6⟩
    have hfb' : e[i']? = d[i']? := TOnly_nonT h i' (by rw [hfb]; rfl)
    refine ⟨a, nm, bid, target, j, hfb'.trans hfb, hnm, hbid, h1, h2, h3, h4, ?_, h5, h6⟩
    rw [findEnd_congr (fun m => TOnly_popt_eq h (tBlind_isEndFor bid) m) i', hend]

theorem foldl_fillStep_TOnly (values : Values) :
    ∀ (is : List Nat) (p : List Node × Bool) (d : List Node),
      TOnly d p.1 → TOnly d (is.foldl (fillStep values) p).1 := by
  intro is
  induction is with
  | nil => intro p d h; exact h
  | cons i is ih =>
    intro p d h
    rw [List.foldl_cons]
    exact ih _ d (TOnly_trans h (processOne_TOnly values p.1 i))

theorem foldl_fillStep_outside (values : Values) :
    ∀ (is : List Nat) (d : List Node) (k : Nat),
      (∀ i' ∈ is, ¬ WritesInto values d i' k) →
      ∀ (p : List Node × Bool), TOnly d p.1 →
        (is.foldl (fillStep values) p).1[k]? = p.1[k]? := by
  intro is
  induction is with
  | nil => intro d k _ p _; rfl
  | cons i is ih =>
    intro d k h p hT
    rw [List.foldl_cons]
    have hstep : (processOne values p.1 i).1[k]? = p.1[k]? := by
      apply processOne_out
      rw [TOnly_writesInto_iff hT values i k]
      exact h i (List.mem_cons.mpr (Or.inl rfl))
    have hrest := ih d k (fun i' hi' => h i' (List.mem_cons.mpr (Or.inr hi')))
      (fillStep values p i) (TOnly_trans hT (processOne_TOnly values p.1 i))
    rw [hrest]
    exact hstep

theorem fillDoc_TOnly (values : Values) (d : List Node) :
    TOnly d (fillDoc values d).1 :=
  foldl_fillStep_TOnly values (fbIndices d) (d, false) d (TOnly_refl d)

theorem tIndices_congr {d e : List Node} (h : TOnly d e) (i j : Nat) :
    tIndices e i j = tIndices d i j := by
  unfold tIndices
  rw [← h.1]
  apply List.filter_congr
  intro k _
  rw [TOnly_popt_eq h tBlind_isTNode k]

theorem rangesOf_mem {d : List Node} {i j : Nat} {a : FBAttrs} {nm bid : String}
    (hfb : d[i]? = some (Node.fieldBegin a)) (hnm : a.name = some nm)
    (hbid : a.id = some bid) (hbid0 : (bid == "") = false)
    (hend : findEnd d i bid = some j) : (i, j) ∈ rangesOf d := by
  unfold rangesOf
  rw [List.mem_filterMap]
  refine ⟨i, ?_, ?_⟩
  · rw [mem_fbIndices_iff, hfb]
    simp [popt, isNamedIdFB, hnm, hbid]
  · simp [hfb, hbid, hbid0, hend]

theorem isEndFor_not_isT {bid : String} {o : Option Node}
    (h : popt (isEndFor bid) o = true) : popt isTNode o = false := by
  cases o with
  | none => rfl
  | some n =>
    cases n with
    | fieldEnd r => rfl
    | fieldBegin a => simp [popt, isEndFor] at h
    | t s => simp [popt, isEndFor] at h
    | pic rs => simp [popt, isEndFor] at h
    | other tg => simp [popt, isEndFor] at h

theorem fillDoc_fanout (values : Values) (d : List Node) (hdisj : RangesDisjoint d)
    (i : Nat) (a : FBAttrs) (nm bid target : String) (j k0 : Nat) (ks : List Nat)
    (hfb : d[i]? = some (Node.fieldBegin a)) (hnm : a.name = some nm)
    (hbid : a.id = some bid) (hg : (nm == "" || bid == "") = false)
    (hlk : values.lookup nm = some target)
    (himg : strStartsWith nm imgPref = false)
    (hend : findEnd d i bid = some j) (hts : tIndices d i j = k0 :: ks) :
    (fillDoc values d).1[k0]? = some (Node.t target) ∧
      ∀ k ∈ ks, (fillDoc values d).1[k]? = some (Node.t noText) := by
  have hbid0 : (bid == "") = false := by
    cases hbe : bid == ""
    · rfl
    · rw [hbe] at hg; simp at hg
  have hrange : (i, j) ∈ rangesOf d := rangesOf_mem hfb hnm hbid hbid0 hend
  have hprot : ∀ k, i < k → k < j → ∀ i', i' ≠ i → ¬ WritesInto values d i' k := by
    intro k hik hkj i' hne hw
    obtain ⟨a', nm', bid', t', j', hfb', hnm', hbid', hne1, hne2, hlk', himg', hend',
      hik', hkj'⟩ := hw
    have hbid0' : (bid' == "") = false := by
      cases hbe : bid' == ""
      · rfl
      · exact absurd (beq_iff_eq.mp hbe) hne2
    have hrange' : (i', j') ∈ rangesOf d := rangesOf_mem hfb' hnm' hbid' hbid0' hend'
    have hd := hdisj (i, j) hrange (i', j') hrange' (Ne.symm hne)
    rcases hd with hcase | hcase <;> simp at hcase <;> omega
  have hi : i ∈ fbIndices d := by
    rw [mem_fbIndices_iff, hfb]
    simp [popt, isNamedIdFB, hnm, hbid]
  obtain ⟨is₁, is₂, hsplit⟩ := List.append_of_mem hi
  have hnd : (is₁ ++ i :: is₂).Nodup := hsplit ▸ fbIndices_nodup d
  have hinotis₂ : i ∉ is₂ := (List.nodup_cons.mp hnd.of_append_right).1
  unfold fillDoc
  rw [hsplit, List.foldl_append, List.foldl_cons]
  set P := is₁.foldl (fillStep values) (d, false) with hP
  have hTP : TOnly d P.1 := foldl_fillStep_TOnly values is₁ (d, false) d (TOnly_refl d)
  have hfbP : P.1[i]? = some (Node.fieldBegin a) := by
    rw [TOnly_nonT hTP i (by rw [hfb]; rfl), hfb]
  have hendP : findEnd P.1 i bid = some j := by
    rw [findEnd_congr (fun m => TOnly_popt_eq hTP (tBlind_isEndFor bid) m) i, hend]
  have htsP : tIndices P.1 i j = k0 :: ks := by
    rw [tIndices_congr hTP i j, hts]
  have hstep := processOne_writes values P.1 i a nm bid target j k0 ks hfbP hnm hbid hg
    hlk himg hendP htsP
  have hk0mem : k0 ∈ tIndices d i j := by
    rw [hts]; exact List.mem_cons.mpr (Or.inl rfl)
  have hk0b := (mem_tIndices_iff d i j k0).mp hk0mem
  have hk0T : popt isTNode P.1[k0]? = true := by
    rw [TOnly_popt_eq hTP tBlind_isTNode k0]
    exact hk0b.2.2
  have hk0ks : k0 ∉ ks := by
    have := tIndices_nodup d i j
    rw [hts] at this
    exact (List.nodup_cons.mp this).1
  have hksnd : ks.Nodup := by
    have := tIndices_nodup d i j
    rw [hts] at this
    exact (List.nodup_cons.mp this).2
  have hQ0 : (fillStep values P i).1[k0]? = some (Node.t target) := by
    show (processOne values P.1 i).1[k0]? = some (Node.t target)
    rw [hstep]
    dsimp only
    rw [blankExtras_outside ks _ k0 hk0ks]
    exact writeFirstT_effect hk0T
  have hQks : ∀ k ∈ ks, (fillStep values P i).1[k]? = some (Node.t noText) := by
    intro k hk
    show (processOne values P.1 i).1[k]? = some (Node.t noText)
    rw [hstep]
    dsimp only
    refine blankExtras_effect ks _ hksnd ?_ k hk
    intro k' hk'
    rw [TOnly_popt_eq (writeFirstT_TOnly hk0T) tBlind_isTNode k',
      TOnly_popt_eq hTP tBlind_isTNode k']
    exact ((mem_tIndices_iff d i j k').mp
      (by rw [hts]; exact List.mem_cons.mpr (Or.inr hk'))).2.2
  have hTQ : TOnly d (fillStep values P i).1 :=
    TOnly_trans hTP (processOne_TOnly values P.1 i)
  constructor
  · have hprot0 : ∀ i' ∈ is₂, ¬ WritesInto values d i' k0 := by
      intro i' hi' hw
      exact hprot k0 hk0b.1 hk0b.2.1 i' (fun he => hinotis₂ (he ▸ hi')) hw
    rw [foldl_fillStep_outside values is₂ d k0 hprot0 (fillStep values P i) hTQ]
    exact hQ0
  · intro k hk
    have hkb := (mem_tIndices_iff d i j k).mp
      (by rw [hts]; exact List.mem_cons.mpr (Or.inr hk))
    have hprotk : ∀ i' ∈ is₂, ¬ WritesInto values d i' k := by
      intro i' hi' hw
      exact hprot k hkb.1 hkb.2.1 i' (fun he => hinotis₂ (he ▸ hi')) hw
    rw [foldl_fillStep_outside values is₂ d k hprotk (fillStep values P i) hTQ]
    exact hQks k hk

theorem fillDoc_absent (values : Values) (d : List Node) (hdisj : RangesDisjoint d)
    (i : Nat) (a : FBAttrs) (nm bid : String) (j : Nat)
    (hfb : d[i]? = some (Node.fieldBegin a)) (hnm : a.name = some nm)
    (hbid : a.id = some bid) (hg : (nm == "" || bid == "") = false)
    (hlk : values.lookup nm = none)
    (hend : findEnd d i bid = some j) :
    ∀ k, i ≤ k → k ≤ j → (fillDoc values d).1[k]? = d[k]? := by
  intro k hik hkj
  cases hkT : popt isTNode d[k]? with
  | false => exact TOnly_nonT (fillDoc_TOnly values d) k hkT
  | true =>
    have hbid0 : (bid == "") = false := by
      cases hbe : bid == ""
      · rfl
      · rw [hbe] at hg; simp at hg
    have hrange : (i, j) ∈ rangesOf d := rangesOf_mem hfb hnm hbid hbid0 hend
    have hki : k ≠ i := by
      intro he; rw [he, hfb] at hkT; simp [popt, isTNode] at hkT
    have hkjne : k ≠ j := by
      intro he
      obtain ⟨-, h2, -⟩ := (findEnd_some_iff d i bid j).mp hend
      have := isEndFor_not_isT h2
      rw [← he] at this
      rw [hkT] at this
      exact absurd this (by simp)
    have hik' : i < k := lt_of_le_of_ne hik (Ne.symm hki)
    have hkj2 : k < j := lt_of_le_of_ne hkj hkjne
    have hprot : ∀ i' ∈ fbIndices d, ¬ WritesInto values d i' k := by
      intro i' hi' hw
      obtain ⟨a', nm', bid', t', j', hfb', hnm', hbid', hne1, hne2, hlk', himg', hend',
        hik'', hkj''⟩ := hw
      by_cases hii : i' = i
      · subst hii
        have hsome : some (Node.fieldBegin a') = some (Node.fieldBegin a) := by
          rw [← hfb', ← hfb]
        have haa : a' = a := by
          injection hsome with h1
          injection h1
        subst haa
        rw [hnm] at hnm'
        have hnn : nm' = nm := by injection hnm' with h2; exact h2.symm
        subst hnn
        rw [hlk] at hlk'
        exact absurd hlk' (by simp)
      · have hbid0' : (bid' == "") = false := by
          cases hbe : bid' == ""
          · rfl
          · exact absurd (beq_iff_eq.mp hbe) hne2
        have hrange' : (i', j') ∈ rangesOf d := rangesOf_mem hfb' hnm' hbid' hbid0' hend'
        have hd := hdisj (i, j) hrange (i', j') hrange' (fun he => hii he.symm)
        rcases hd with hcase | hcase <;> simp at hcase <;> omega
    unfold fillDoc
    rw [foldl_fillStep_outside values (fbIndices d) d k hprot (d, false) (TOnly_refl d)]

theorem foldl_fillStep_nil :
    ∀ (is : List Nat) (p : List Node × Bool), is.foldl (fillStep []) p = p := by
  intro is
  induction is with
  | nil => intro p; rfl
  | cons i is ih =>
    intro p
    rw [List.foldl_cons]
    have hstep : fillStep [] p i = p := by
      show ((processOne [] p.1 i).1, p.2 || (processOne [] p.1 i).2) = p
      rw [processOne_nilvals]
      simp
    rw [hstep, ih]

theorem fillDoc_nilvals (d : List Node) : fillDoc [] d = (d, false) :=
  foldl_fillStep_nil (fbIndices d) (d, false)

theorem writeLoop_eq_map (ctx : Ctx) :
    ∀ entries : List (String × Bytes),
      writeLoop ctx entries = entries.map (emitPart ctx) := by
  intro entries
  induction entries with
  | nil => rfl
  | cons e rest ih => rw [writeLoop, List.map_cons, ih]

theorem contents_not_binData {s : String}
    (h1 : strStartsWith s contentsPref = true)
    (h2 : strStartsWith s binDataPref = true) : False := by
  unfold strStartsWith at h1 h2
  rw [List.isPrefixOf_iff_prefix] at h1 h2
  obtain ⟨t1, ht1⟩ := h1
  obtain ⟨t2, ht2⟩ := h2
  have hC : contentsPref.data = 'C' :: ("ontents/").data := by decide
  have hB : binDataPref.data = 'B' :: ("inData/").data := by decide
  rw [hC, List.cons_append] at ht1
  rw [hB, List.cons_append] at ht2
  rw [← ht2] at ht1
  injection ht1 with hc _
  exact absurd hc (by decide)

theorem emitPart_id_of_empty (C : Codec) (enc : String → Bytes) (strip : Bool)
    (oc : Bool) (e : String × Bytes) :
    emitPart ⟨C, enc, strip, oc, [], [], [], []⟩ e = e := by
  unfold emitPart
  split
  · split
    · rename_i hmr
      exact absurd hmr (by simp [maybeRelated])
    · rfl
  · split
    · split
      · rename_i heq
        simp [replacementFor] at heq
      · rfl
    · rfl

/-- Claim C2: rewriting the container with an empty values mapping is the
identity on part contents (part for part), and the text injector returns
its input bytes unchanged whenever no occurrence changed.  Amended per
`claim_C2_counter`: this holds for the week03a Safe-Edition engine; the
week02c rewriter cited by the claim re-serializes every Contents XML part
unconditionally and blanks unfilled placeholders, so the identity fails
there. -/
theorem claim_C2 :
    (∀ (C : Codec) (enc : String → Bytes) (strip : Bool)
        (entries : List (String × Bytes)) (oc : Bool),
        generate_submit_hwpx C enc strip entries [] oc = some entries) ∧
      (∀ (C : Codec) (b : Bytes) (vs : Values) (d : List Node),
        C.parse b = some d → (fillDoc vs d).2 = false →
        fill_fields_in_xml C b vs = some (b, false)) := by
  constructor
  · intro C enc strip entries oc
    unfold generate_submit_hwpx
    dsimp only [splitPayload, buildImgBytes, buildSlotToBindata]
    rw [writeLoop_eq_map]
    have hmap : entries.map (emitPart ⟨C, enc, strip, oc, [], [], [], []⟩) = entries := by
      rw [List.map_congr_left (fun e _ => emitPart_id_of_empty C enc strip oc e)]
      exact List.map_id' entries
    rw [hmap]
  · intro C b vs d hparse hch
    unfold fill_fields_in_xml
    rw [hparse]
    dsimp only
    rw [hch]
    simp

/-- Closed instance of claim C2 for the week03a engine, at a concrete codec
and container. -/
theorem claim_C2_check :
    unitCodec.parse [5] = some [] ∧ (fillDoc [] ([] : List Node)).2 = false ∧
      fill_fields_in_xml unitCodec [5] [] = some ([5], false) ∧
      generate_submit_hwpx trivialCodec enc0 STRIP_CLICK_HERE entries5 [] true =
        some entries5 :=
  ⟨rfl, by decide, claim_C2.2 unitCodec [5] [] [] rfl (by decide),
    claim_C2.1 trivialCodec enc0 STRIP_CLICK_HERE entries5 true⟩

/-- Claim C2 as stated fails on the week02c rewriter cited by its sources:
with an empty values mapping, the placeholder text `hello` is blanked and
the part re-serialized, so the output part differs from the source part
byte-for-byte. -/
theorem claim_C2_counter :
    fillDocW2 [] docA = docABlank ∧ docABlank ≠ docA ∧
      generate_submit_hwpxW2 cw2 entriesW2 [] true = [(partMain, [1])] ∧
      generate_submit_hwpxW2 cw2 entriesW2 [] true ≠ entriesW2 :=
  ⟨by decide, by decide, by decide, by decide⟩

/-- Claim C1: for every slot name present in the value mapping, the week03a
text injector writes the supplied value into every occurrence of that name
(fan-out, not just the first occurrence): for each occurrence whose
begin-to-end range holds at least one text leaf, the first leaf of the
range ends up carrying exactly the value and every remaining leaf of the
range ends up empty — under the well-formedness hypothesis that marker
ranges are pairwise disjoint (as they are in real HWPX placeholders). -/
theorem claim_C1 (values : Values) (d : List Node) (hdisj : RangesDisjoint d)
    (i : Nat) (a : FBAttrs) (nm bid target : String) (j k0 : Nat) (ks : List Nat)
    (hfb : d[i]? = some (Node.fieldBegin a)) (hnm : a.name = some nm)
    (hbid : a.id = some bid) (hg : (nm == "" || bid == "") = false)
    (hlk : values.lookup nm = some target)
    (himg : strStartsWith nm imgPref = false)
    (hend : findEnd d i bid = some j) (hts : tIndices d i j = k0 :: ks) :
    (fillDoc values d).1[k0]? = some (Node.t target) ∧
      ∀ k ∈ ks, (fillDoc values d).1[k]? = some (Node.t noText) :=
  fillDoc_fanout values d hdisj i a nm bid target j k0 ks hfb hnm hbid hg hlk himg hend hts

/-- Closed instance of claim C1: a two-leaf occurrence of `NAME` receives
`Alice` in its first leaf and an empty second leaf. -/
theorem claim_C1_check :
    RangesDisjoint doc1 ∧
      ((fillDoc vals1 doc1).1[1]? = some (Node.t vAlice) ∧
        ∀ k ∈ [2], (fillDoc vals1 doc1).1[k]? = some (Node.t noText)) :=
  ⟨by unfold RangesDisjoint; decide,
    claim_C1 vals1 doc1 (by unfold RangesDisjoint; decide) 0
      ⟨some nameSlot, some id1, none, none, none, none⟩
      nameSlot id1 vAlice 3 1 [2] (by decide) rfl rfl (by decide) (by decide) (by decide)
      (by decide) (by decide)⟩

/-- Claim C4 (amended): in the week03a engine, every slot whose name is
absent from the value mapping is left exactly as found — markers and all
text leaves of its begin-to-end range are unchanged in the output (given
pairwise-disjoint marker ranges).  Amended per `claim_C4_counter`: the
week02c injector cited by the claim instead blanks absent slots, writing
the empty string into their placeholder leaves (dict get with empty
default). -/
theorem claim_C4 (values : Values) (d : List Node) (hdisj : RangesDisjoint d)
    (i : Nat) (a : FBAttrs) (nm bid : String) (j : Nat)
    (hfb : d[i]? = some (Node.fieldBegin a)) (hnm : a.name = some nm)
    (hbid : a.id = some bid) (hg : (nm == "" || bid == "") = false)
    (hlk : values.lookup nm = none)
    (hend : findEnd d i bid = some j) :
    ∀ k, i ≤ k → k ≤ j → (fillDoc values d).1[k]? = d[k]? :=
  fillDoc_absent values d hdisj i a nm bid j hfb hnm hbid hg hlk hend

/-- Closed instance of claim C4: while slot `B` is injected, the absent
slot `A` and its whole range are untouched. -/
theorem claim_C4_check :
    RangesDisjoint doc4 ∧ vals4.lookup slotA = none ∧
      ∀ k, 0 ≤ k → k ≤ 2 → (fillDoc vals4 doc4).1[k]? = doc4[k]? :=
  ⟨by unfold RangesDisjoint; decide, by decide,
    claim_C4 vals4 doc4 (by unfold RangesDisjoint; decide) 0
      ⟨some slotA, some id1, none, none, none, none⟩
      slotA id1 2 (by decide) rfl rfl (by decide) (by decide) (by decide)⟩

/-- Claim C4 as stated fails on the week02c injector cited by its sources:
with slot `A` absent from the mapping (only `B` is submitted), the
placeholder leaf of `A` is blanked from `x` to the empty string. -/
theorem claim_C4_counter :
    fillDocW2 vals4 doc4 =
      [mkFB (some slotA) (some id1), Node.t noText, Node.fieldEnd (some id1),
        mkFB (some slotB) (some id2), Node.t vV, Node.fieldEnd (some id2)] ∧
      (fillDocW2 vals4 doc4)[1]? ≠ doc4[1]? :=
  ⟨by decide, by decide⟩

/-- Claim C6: for every begin marker, the matching end marker is exactly
the first marker following it in document order whose back-reference
equals the begin id (full characterization of `findEnd`); and when no such
end marker exists, the injector loop body skips that occurrence without
error and without modifying the document, so other occurrences in the same
part can still be injected. -/
theorem claim_C6 :
    (∀ (d : List Node) (i : Nat) (bid : String) (j : Nat),
        findEnd d i bid = some j ↔
          i < j ∧ popt (isEndFor bid) d[j]? = true ∧
            ∀ m : Nat, i < m → m < j → popt (isEndFor bid) d[m]? = false) ∧
      (∀ (values : Values) (d : List Node) (i : Nat) (a : FBAttrs)
          (nm bid target : String),
        d[i]? = some (Node.fieldBegin a) → a.name = some nm → a.id = some bid →
          (nm == "" || bid == "") = false → values.lookup nm = some target →
          strStartsWith nm imgPref = false → findEnd d i bid = none →
          processOne values d i = (d, false)) :=
  ⟨findEnd_some_iff,
    fun values d i a nm bid target hfb hnm hbid hg hlk himg hend =>
      processOne_noend values d i a nm bid target hfb hnm hbid hg hlk himg hend⟩

/-- Closed instance of claim C6: the begin marker of `A` has no matching
end, so its occurrence is skipped with no modification, while the `B`
occurrence in the same part is still injected. -/
theorem claim_C6_check :
    vals6.lookup slotA = some vV ∧ findEnd doc6 0 id1 = none ∧
      processOne vals6 doc6 0 = (doc6, false) ∧
      (fillDoc vals6 doc6).1[2]? = some (Node.t vW) :=
  ⟨by decide, by decide,
    claim_C6.2 vals6 doc6 0 ⟨some slotA, some id1, none, none, none, none⟩ slotA id1 vV
      (by decide) rfl rfl (by decide) (by decide) (by decide) (by decide),
    by decide⟩

/-- Claim C7 (amended): in the week02c injector, an occurrence being
injected whose begin-to-end range holds no text leaf receives a freshly
inserted text leaf carrying the value (empty when the slot is absent)
directly before the end marker.  Amended per `claim_C7_counter`: the
week03a injector cited by the claim has no insertion branch and leaves
such occurrences unchanged. -/
theorem claim_C7 (values : Values) (d : List Node) (i : Nat) (a : FBAttrs)
    (nm bid : String) (j : Nat)
    (hfb : d[i]? = some (Node.fieldBegin a)) (hnm : a.name = some nm)
    (hbid : a.id = some bid) (hg : (nm == "" || bid == "") = false)
    (hend : findEnd d i bid = some j) (hts : tIndices d i j = []) :
    processOneW2 values d i =
        (d.take j ++ Node.t ((values.lookup nm).getD noText) :: d.drop j, some j) ∧
      (d.take j ++ Node.t ((values.lookup nm).getD noText) :: d.drop j)[j]? =
        some (Node.t ((values.lookup nm).getD noText)) ∧
      (d.take j ++ Node.t ((values.lookup nm).getD noText) :: d.drop j)[j + 1]? =
        d[j]? := by
  have hjlen : j < d.length := by
    obtain ⟨-, h2, -⟩ := (findEnd_some_iff d i bid j).mp hend
    exact popt_lt_length h2
  have hlen : (d.take j).length = j := by
    rw [List.length_take]
    exact Nat.min_eq_left (le_of_lt hjlen)
  refine ⟨?_, ?_, ?_⟩
  · simp only [processOneW2, hfb, hnm, hbid, hg, hend, hts]
    rfl
  · rw [List.getElem?_append, hlen]
    simp
  · rw [List.getElem?_append, hlen]
    have h1 : j + 1 - j = 1 := by omega
    simp [h1, List.getElem?_drop]

/-- Closed instance of claim C7 (amended): the empty range around slot `N`
receives an inserted leaf carrying `v` directly before the end marker. -/
theorem claim_C7_check :
    tIndices doc7 0 1 = [] ∧
      processOneW2 vals7 doc7 0 =
        ([mkFB (some slotN) (some id1), Node.t vV, Node.fieldEnd (some id1)], some 1) := by
  refine ⟨by decide, ?_⟩
  have h := (claim_C7 vals7 doc7 0 ⟨some slotN, some id1, none, none, none, none⟩ slotN id1 1
    (by decide) rfl rfl (by decide) (by decide) (by decide)).1
  rw [h]
  decide

/-- Claim C7 as stated fails on the week03a injector cited by its sources:
a supplied value for slot `N`, whose occurrence range holds no text leaf,
is not injected at all — no text leaf is inserted before the end marker,
the document is unchanged, and the part reports no change. -/
theorem claim_C7_counter :
    vals7.lookup slotN = some vV ∧ findEnd doc7 0 id1 = some 1 ∧
      tIndices doc7 0 1 = [] ∧ fillDoc vals7 doc7 = (doc7, false) ∧
      (fillDoc vals7 doc7).1.length = 2 :=
  ⟨by decide, by decide, by decide, by decide, by decide⟩

theorem buildImgBytes_none :
    ∀ iv : List (String × String), iv.any badImage = true →
      buildImgBytes iv = none := by
  intro iv
  induction iv with
  | nil => intro h; simp at h
  | cons su rest ih =>
    intro h
    rw [List.any_cons] at h
    obtain ⟨slot, url⟩ := su
    cases hbad : badImage (slot, url) with
    | true =>
      unfold buildImgBytes
      cases hdec : decode_data_url url with
      | none => simp only [hdec]
      | some mr =>
        obtain ⟨mime, raw⟩ := mr
        unfold badImage at hbad
        simp only [hdec] at hbad
        have hm : mimeAllowed mime = false := by simpa using hbad
        simp only [hdec, hm]
        simp
    | false =>
      rw [hbad] at h
      simp only [Bool.false_or] at h
      unfold buildImgBytes
      cases hdec : decode_data_url url with
      | none => simp only [hdec]
      | some mr =>
        obtain ⟨mime, raw⟩ := mr
        simp only [hdec, ih h]
        split <;> rfl

/-- Claim C5 (amended): an image submission whose declared media type is
outside the allow-list (or whose data URL cannot be decoded) raises out of
`generate_submit_hwpx` before any output part is written: the whole
operation aborts and no output container is produced — rather than
rejecting only that image submission and proceeding, as the claim (and the
error-handling table of the spec) states. -/
theorem claim_C5 (C : Codec) (enc : String → Bytes) (strip : Bool)
    (entries : List (String × Bytes)) (payload : List (String × PayloadValue))
    (oc : Bool) (h : ((splitPayload payload).2).any badImage = true) :
    generate_submit_hwpx C enc strip entries payload oc = none := by
  unfold generate_submit_hwpx
  dsimp only
  rw [buildImgBytes_none _ h]

/-- Closed instance of claim C5 (amended). -/
theorem claim_C5_check :
    ((splitPayload payload5).2).any badImage = true ∧
      generate_submit_hwpx unitCodec enc0 STRIP_CLICK_HERE entries5 payload5 true = none :=
  ⟨by decide, claim_C5 unitCodec enc0 STRIP_CLICK_HERE entries5 payload5 true (by decide)⟩

/-- Claim C5 as stated fails: the payload submits a valid text value for
`NAME` together with a GIF image for `IMG_X`; the claim says the image is
rejected while the rest of the run proceeds and an output container is
produced, but `generate_submit_hwpx` raises on the disallowed media type
and produces no output at all (the text value is not applied either). -/
theorem claim_C5_counter :
    (splitPayload payload5).1 = [(nameSlot, vV)] ∧
      decode_data_url urlGif = some (("image/gif" : String), [0, 0, 0]) ∧
      generate_submit_hwpx trivialCodec enc0 STRIP_CLICK_HERE entries5 payload5 true =
        none :=
  ⟨by decide, by decide, by decide⟩

/-- Claim C8: a part whose bytes fail to parse is fail-soft in both
phases.  During slot discovery it contributes zero occurrences and the
scan continues over the remaining parts (dropping it from the container
leaves the slot map unchanged); during the rewrite every part is emitted
independently of the others (the write loop is a per-part map), and a
candidate XML part whose parse raises is emitted byte-identical to its
source — so a parse failure never aborts the run and never changes the
output of any other part. -/
theorem claim_C8 :
    (∀ (C : Codec) (pre post : List (String × Bytes)) (nm : String) (b : Bytes)
        (oc : Bool), C.parse b = none →
        build_slot_map C (pre ++ (nm, b) :: post) oc =
          build_slot_map C (pre ++ post) oc) ∧
      (∀ (ctx : Ctx) (entries : List (String × Bytes)),
        writeLoop ctx entries = entries.map (emitPart ctx)) ∧
      (∀ (ctx : Ctx) (name : String) (data : Bytes),
        (is_xml_path name && (!ctx.oc || strStartsWith name contentsPref)) = true →
        ctx.C.parse data = none → emitPart ctx (name, data) = (name, data)) := by
  refine ⟨?_, fun ctx => writeLoop_eq_map ctx, ?_⟩
  · intro C pre post nm b oc hparse
    unfold build_slot_map
    rw [List.foldl_append, List.foldl_append, List.foldl_cons]
    congr 1
    dsimp only
    rw [hparse]
    split
    · rfl
    · split
      · rfl
      · rfl
  · intro ctx name data hcond hparse
    have hpx : processXmlPart ctx.C ctx.strip ctx.text_values data = data := by
      unfold processXmlPart fill_fields_in_xml
      rw [hparse]
    unfold emitPart
    simp [hcond, hpx]

/-- Closed instance of claim C8 at a codec whose parses always raise. -/
theorem claim_C8_check :
    trivialCodec.parse [4] = none ∧
      build_slot_map trivialCodec (entries8pre ++ entry8bad :: []) true =
        build_slot_map trivialCodec (entries8pre ++ []) true ∧
      emitPart ctx8 (partBad, [4]) = (partBad, [4]) :=
  ⟨rfl, claim_C8.1 trivialCodec entries8pre [] partBad [4] true rfl,
    claim_C8.2.2 ctx8 partBad [4] (by decide) rfl⟩

theorem countP_or_disjoint {α : Type} (p q : α → Bool) :
    ∀ l : List α, (∀ x ∈ l, !(p x && q x) = true) →
      l.countP (fun x => p x || q x) = l.countP p + l.countP q := by
  intro l
  induction l with
  | nil => intro _; rfl
  | cons a l ih =>
    intro h
    rw [List.countP_cons, List.countP_cons, List.countP_cons,
      ih (fun x hx => h x (List.mem_cons.mpr (Or.inr hx)))]
    have ha := h a (List.mem_cons.mpr (Or.inl rfl))
    cases hp : p a with
    | true =>
      cases hq : q a with
      | true => rw [hp, hq] at ha; simp at ha
      | false => simp [hp, hq]; omega
    | false =>
      cases hq : q a with
      | true => simp [hp, hq]; omega
      | false => simp [hp, hq]

theorem countP_not_add {α : Type} (p : α → Bool) :
    ∀ l : List α, l.countP p + l.countP (fun x => !p x) = l.length := by
  intro l
  induction l with
  | nil => rfl
  | cons a l ih =>
    rw [List.countP_cons, List.countP_cons, List.length_cons]
    cases hp : p a <;> simp [hp] <;> omega

theorem countP_chBegin :
    ∀ d : List Node, (∀ n ∈ d, chBeginOk n = true) →
      d.countP isCHBegin = (chBeginIds d).length := by
  intro d
  induction d with
  | nil => intro _; rfl
  | cons n d ih =>
    intro h
    have hok := h n (List.mem_cons.mpr (Or.inl rfl))
    have ihh := ih (fun x hx => h x (List.mem_cons.mpr (Or.inr hx)))
    rw [List.countP_cons]
    cases n with
    | fieldBegin a =>
      cases hty : a.ty == some clickHereTy with
      | true =>
        simp only [chBeginOk, hty, if_true] at hok
        have hty2 : a.ty = some clickHereTy := beq_iff_eq.mp hty
        cases hid : a.id with
        | none => rw [hid] at hok; exact absurd hok (by simp)
        | some bid =>
          rw [hid] at hok
          have hok2 : (bid != "") = true := hok
          have hbne : bid ≠ "" := bne_iff_ne.mp hok2
          simp [chBeginIds, List.filterMap_cons, hid, hty2, hbne, isCHBegin, ihh,
            List.length_cons]
      | false =>
        have hty2 : a.ty ≠ some clickHereTy := by
          intro he
          rw [he] at hty
          simp at hty
        simp [chBeginIds, List.filterMap_cons, hty2, isCHBegin, hty, ihh]
    | fieldEnd r => simp [chBeginIds, List.filterMap_cons, isCHBegin, ihh]
    | t s => simp [chBeginIds, List.filterMap_cons, isCHBegin, ihh]
    | pic rs => simp [chBeginIds, List.filterMap_cons, isCHBegin, ihh]
    | other tg => simp [chBeginIds, List.filterMap_cons, isCHBegin, ihh]

theorem isEndRefIn_nil (n : Node) : isEndRefIn [] n = false := by
  cases n with
  | fieldEnd r => cases r <;> rfl
  | fieldBegin a => rfl
  | t s => rfl
  | pic rs => rfl
  | other tg => rfl

theorem isEndRefIn_cons (b : String) (bs : List String) (n : Node) :
    isEndRefIn (b :: bs) n = (isEndFor b n || isEndRefIn bs n) := by
  cases n with
  | fieldEnd r =>
    cases r with
    | none => rfl
    | some x => simp only [isEndRefIn, isEndFor, List.contains_cons]
  | fieldBegin a => rfl
  | t s => rfl
  | pic rs => rfl
  | other tg => rfl

theorem countP_endRefIn :
    ∀ (bs : List String) (d : List Node), bs.Nodup →
      (∀ b ∈ bs, d.countP (isEndFor b) = 1) →
      d.countP (isEndRefIn bs) = bs.length := by
  intro bs
  induction bs with
  | nil =>
    intro d _ _
    have h0 : d.countP (isEndRefIn []) = 0 := by
      rw [List.countP_eq_zero]
      intro n _
      rw [isEndRefIn_nil]
      simp
    rw [h0]
    rfl
  | cons b bs ih =>
    intro d hnd h
    have hcongr : d.countP (isEndRefIn (b :: bs)) =
        d.countP (fun n => isEndFor b n || isEndRefIn bs n) := by
      apply List.countP_congr
      intro n _
      rw [isEndRefIn_cons]
    rw [hcongr]
    have hdisj : ∀ n ∈ d, !(isEndFor b n && isEndRefIn bs n) = true := by
      intro n _
      cases n with
      | fieldEnd r =>
        cases r with
        | none => rfl
        | some x =>
          by_cases hxb : (x == b) = true
          · have hx : x = b := beq_iff_eq.mp hxb
            subst hx
            have hmem : x ∉ bs := (List.nodup_cons.mp hnd).1
            have hc : bs.contains x = false := by
              cases hce : bs.contains x
              · rfl
              · exact absurd (List.elem_iff.mp hce) hmem
            simp [isEndFor, isEndRefIn, hc, hmem]
          · simp [isEndFor, isEndRefIn, hxb]
      | fieldBegin a => rfl
      | t s => rfl
      | pic rs => rfl
      | other tg => rfl
    rw [countP_or_disjoint (isEndFor b) (isEndRefIn bs) d hdisj,
      h b (List.mem_cons.mpr (Or.inl rfl)),
      ih d (List.nodup_cons.mp hnd).2 (fun x hx => h x (List.mem_cons.mpr (Or.inr hx))),
      List.length_cons]
    omega

theorem stripDoc_filter (d : List Node) :
    (stripDoc d).1 =
      d.filter (fun n => !(isCHBegin n || isEndRefIn (chBeginIds d) n)) := by
  unfold stripDoc
  dsimp only
  cases hbe : (chBeginIds d).isEmpty with
  | true =>
    have hnil : chBeginIds d = [] := List.isEmpty_iff.mp hbe
    rw [if_pos rfl, hnil]
    apply List.filter_congr
    intro n _
    rw [isEndRefIn_nil]
    simp
  | false =>
    simp only [Bool.false_eq_true, if_false]
    rw [List.filter_filter]
    apply List.filter_congr
    intro n _
    cases h1 : isCHBegin n <;> cases h2 : isEndRefIn (chBeginIds d) n <;>
      simp [h1, h2]

theorem stripDoc_length (d : List Node)
    (hok : ∀ n ∈ d, chBeginOk n = true)
    (hnd : (chBeginIds d).Nodup)
    (h1 : ∀ b ∈ chBeginIds d, d.countP (isEndFor b) = 1) :
    (stripDoc d).1.length + 2 * (chBeginIds d).length = d.length := by
  rw [stripDoc_filter, ← List.countP_eq_length_filter]
  have hdisj : ∀ n ∈ d, !(isCHBegin n && isEndRefIn (chBeginIds d) n) = true := by
    intro n _
    cases n with
    | fieldBegin a => simp [isEndRefIn]
    | fieldEnd r => simp [isCHBegin]
    | t s => rfl
    | pic rs => rfl
    | other tg => rfl
  have hor := countP_or_disjoint isCHBegin (isEndRefIn (chBeginIds d)) d hdisj
  rw [countP_chBegin d hok, countP_endRefIn (chBeginIds d) d hnd h1] at hor
  have hsum := countP_not_add (fun n => isCHBegin n || isEndRefIn (chBeginIds d) n) d
  rw [hor] at hsum
  omega

/-- Claim C9: the marker-stripping pass is disabled by default
(`STRIP_CLICK_HERE = false`); when run on a part whose `CLICK_HERE` begin
markers are well-formed (each carries a truthy id, the ids are distinct,
and each id is back-referenced by exactly one end marker), it removes
exactly the `2N` elements of the `N` `CLICK_HERE` begin/end pairs — the
result is precisely the original document filtered of those markers, so
the count and relative order of every other element is unchanged and no
marker of any other type is touched. -/
theorem claim_C9 (d : List Node)
    (hok : ∀ n ∈ d, chBeginOk n = true)
    (hnd : (chBeginIds d).Nodup)
    (h1 : ∀ b ∈ chBeginIds d, d.countP (isEndFor b) = 1) :
    STRIP_CLICK_HERE = false ∧
      (stripDoc d).1 =
        d.filter (fun n => !(isCHBegin n || isEndRefIn (chBeginIds d) n)) ∧
      (stripDoc d).1.length + 2 * (chBeginIds d).length = d.length :=
  ⟨rfl, stripDoc_filter d, stripDoc_length d hok hnd h1⟩

/-- Closed instance of claim C9: one `CLICK_HERE` pair around a text leaf
is stripped to exactly the two non-marker nodes. -/
theorem claim_C9_check :
    (∀ n ∈ doc9, chBeginOk n = true) ∧ (chBeginIds doc9).length = 1 ∧
      (stripDoc doc9).1.length + 2 * (chBeginIds doc9).length = doc9.length :=
  ⟨by decide, by decide, (claim_C9 doc9 (by decide) (by decide) (by decide)).2.2⟩

theorem findPicScan_eq (d : List Node) :
    ∀ is : List Nat, findPicScan d is = (is.filterMap (occPicRef d)).head? := by
  intro is
  induction is with
  | nil => rfl
  | cons i is ih =>
    unfold findPicScan
    rw [List.filterMap_cons]
    cases h : occPicRef d i with
    | some r => simp only [h, List.head?_cons]
    | none => simp only [h, ih]

theorem imageBinaryId_eq (C : Codec) (oc : Bool) (slot : String) :
    ∀ xs : List (String × Bytes),
      imageBinaryIdForSlot C oc slot xs =
        ((xs.filter
              (fun e => (!oc || strStartsWith e.1 contentsPref) && is_xml_path e.1)).filterMap
            (fun e =>
              match find_pic_binary_id_after_field C e.2 slot with
              | some bid => if bid == "" then none else some bid
              | none => none)).head? := by
  intro xs
  induction xs with
  | nil => rfl
  | cons e xs ih =>
    obtain ⟨path, b⟩ := e
    unfold imageBinaryIdForSlot
    rw [List.filter_cons]
    by_cases hoc : (oc && !strStartsWith path contentsPref) = true
    · rw [if_pos hoc]
      rw [Bool.and_eq_true] at hoc
      have h2 : strStartsWith path contentsPref = false := by
        cases hs : strStartsWith path contentsPref
        · rfl
        · rw [hs] at hoc; simp at hoc
      rw [if_neg (show ¬((!oc || strStartsWith path contentsPref) && is_xml_path path) = true by
        rw [hoc.1, h2]; simp)]
      exact ih
    · rw [if_neg hoc]
      have hor : (!oc || strStartsWith path contentsPref) = true := by
        cases ho : oc with
        | false => simp
        | true =>
          cases hs : strStartsWith path contentsPref with
          | true => simp
          | false => rw [ho, hs] at hoc; simp at hoc
      by_cases hxml : is_xml_path path = true
      · rw [if_neg (show ¬(!is_xml_path path) = true by rw [hxml]; simp)]
        rw [if_pos
          (show ((!oc || strStartsWith path contentsPref) && is_xml_path path) = true by
            rw [hor, hxml]; rfl)]
        rw [List.filterMap_cons]
        cases hfp : find_pic_binary_id_after_field C b slot with
        | none => simp only [hfp]; exact ih
        | some bid =>
          cases hb : bid == "" with
          | true => simp only [hfp, hb, if_pos rfl]; exact ih
          | false => simp only [hfp, hb, Bool.false_eq_true, if_false, List.head?_cons]
      · have hxf : is_xml_path path = false := by
          cases hx : is_xml_path path
          · rfl
          · exact absurd hx hxml
        rw [if_pos (show (!is_xml_path path) = true by rw [hxf]; rfl)]
        rw [if_neg
          (show ¬((!oc || strStartsWith path contentsPref) && is_xml_path path) = true by
            rw [hxf]; simp)]
        exact ih

theorem replacementFor_eq (s2i : List (String × Bytes)) (name : String) :
    ∀ l : List (String × String),
      replacementFor s2i name l =
        (usedSlotFor s2i name l).bind (fun s => s2i.lookup s) := by
  intro l
  induction l with
  | nil => rfl
  | cons sp l ih =>
    obtain ⟨slot, path⟩ := sp
    unfold replacementFor usedSlotFor
    cases hp : path == name with
    | false => simp only [hp, Bool.false_eq_true, if_false]; exact ih
    | true =>
      simp only [hp, if_true]
      cases hlk : s2i.lookup slot with
      | some ib => simp only [hlk, Option.some_bind]
      | none => simp only [hlk]; exact ih

theorem usedSlotFor_mem (s2i : List (String × Bytes)) (name : String) :
    ∀ (l : List (String × String)) (slot : String),
      usedSlotFor s2i name l = some slot → (slot, name) ∈ l := by
  intro l
  induction l with
  | nil => intro slot h; exact absurd h (by simp [usedSlotFor])
  | cons sp l ih =>
    intro slot h
    obtain ⟨s, p⟩ := sp
    unfold usedSlotFor at h
    cases hp : p == name with
    | false =>
      rw [hp] at h
      simp only [Bool.false_eq_true, if_false] at h
      exact List.mem_cons.mpr (Or.inr (ih slot h))
    | true =>
      rw [hp] at h
      simp only [if_true] at h
      cases hlk : s2i.lookup s with
      | some ib =>
        rw [hlk] at h
        have hs : s = slot := by injection h
        have hpn : p = name := beq_iff_eq.mp hp
        exact List.mem_cons.mpr (Or.inl (by rw [← hs, ← hpn]))
      | none =>
        rw [hlk] at h
        exact List.mem_cons.mpr (Or.inr (ih slot h))

theorem keys_nodup_uniq {β : Type} :
    ∀ (l : List (String × β)) (s : String) (a b : β),
      (l.map Prod.fst).Nodup → (s, a) ∈ l → (s, b) ∈ l → a = b := by
  intro l
  induction l with
  | nil => intro s a b _ ha _; exact absurd ha (List.not_mem_nil _)
  | cons kv l ih =>
    intro s a b hnd ha hb
    obtain ⟨k, v⟩ := kv
    rw [List.map_cons] at hnd
    have hnd' := List.nodup_cons.mp hnd
    rcases List.mem_cons.mp ha with ha1 | ha2
    · rcases List.mem_cons.mp hb with hb1 | hb2
      · have h1 : a = v := congrArg Prod.snd ha1
        have h2 : b = v := congrArg Prod.snd hb1
        rw [h1, h2]
      · exfalso
        have hsk : s = k := congrArg Prod.fst ha1
        apply hnd'.1
        rw [← hsk]
        exact List.mem_map.mpr ⟨(s, b), hb2, rfl⟩
    · rcases List.mem_cons.mp hb with hb1 | hb2
      · exfalso
        have hsk : s = k := congrArg Prod.fst hb1
        apply hnd'.1
        rw [← hsk]
        exact List.mem_map.mpr ⟨(s, a), ha2, rfl⟩
      · exact ih s a b hnd'.2 ha2 hb2

theorem countP_le_one_of_same_key {β : Type} (p : String × β → Bool) :
    ∀ l : List (String × β),
      (l.map Prod.fst).Nodup →
      (∀ e1 ∈ l, ∀ e2 ∈ l, p e1 = true → p e2 = true → e1.1 = e2.1) →
      l.countP p ≤ 1 := by
  intro l
  induction l with
  | nil => intro _ _; simp [List.countP_nil]
  | cons e l ih =>
    intro hnd h
    rw [List.countP_cons]
    rw [List.map_cons] at hnd
    have hnd' := List.nodup_cons.mp hnd
    cases hp : p e with
    | false =>
      have hrec := ih hnd'.2
        (fun e1 h1 e2 h2 => h e1 (List.mem_cons.mpr (Or.inr h1)) e2 (List.mem_cons.mpr (Or.inr h2)))
      simpa using hrec
    | true =>
      have hzero : l.countP p = 0 := by
        rw [List.countP_eq_zero]
        intro e' he' hpe'
        apply hnd'.1
        have hkey := h e' (List.mem_cons.mpr (Or.inr he')) e (List.mem_cons.mpr (Or.inl rfl))
          hpe' hp
        rw [← hkey]
        exact List.mem_map.mpr ⟨e', he', rfl⟩
      rw [hzero]
      simp

/-- Claim C10: image replacement does not fan out the way text injection
does.  (1) `find_pic_binary_id_after_field` returns the result of the
first begin-marker occurrence (in document order) whose end marker is
followed by a picture with a binary reference — the head of the list of
per-occurrence results; (2) the per-slot container scan returns the first
truthy binary id over the Contents XML parts in order; (3) the `BinData`
replacement emits the bytes of the first mapped slot whose resolved path
matches the part; (4) hence, per rewrite, at most one container part is
replaced on behalf of a given slot (given unique part names and unique
slot keys). -/
theorem claim_C10 :
    (∀ (d : List Node) (slot : String),
        findPicDoc d slot = ((fbIdxsNamed d slot).filterMap (occPicRef d)).head?) ∧
      (∀ (C : Codec) (oc : Bool) (slot : String) (xs : List (String × Bytes)),
        imageBinaryIdForSlot C oc slot xs =
          ((xs.filter
                (fun e =>
                  (!oc || strStartsWith e.1 contentsPref) && is_xml_path e.1)).filterMap
              (fun e =>
                match find_pic_binary_id_after_field C e.2 slot with
                | some bid => if bid == "" then none else some bid
                | none => none)).head?) ∧
      (∀ (s2i : List (String × Bytes)) (name : String) (l : List (String × String)),
        replacementFor s2i name l =
          (usedSlotFor s2i name l).bind (fun s => s2i.lookup s)) ∧
      (∀ (ctx : Ctx) (slot : String) (entries : List (String × Bytes)),
        (entries.map Prod.fst).Nodup → (ctx.slot_to_bindata.map Prod.fst).Nodup →
        entries.countP
            (fun e => strStartsWith e.1 binDataPref &&
              (usedSlotFor ctx.slot_to_imgbytes e.1 ctx.slot_to_bindata == some slot)) ≤
          1) := by
  refine ⟨fun d slot => findPicScan_eq d (fbIdxsNamed d slot),
    fun C oc slot xs => imageBinaryId_eq C oc slot xs,
    fun s2i name l => replacementFor_eq s2i name l, ?_⟩
  intro ctx slot entries hnd1 hnd2
  apply countP_le_one_of_same_key _ entries hnd1
  intro e1 h1 e2 h2 hp1 hp2
  rw [Bool.and_eq_true] at hp1 hp2
  have hu1 : usedSlotFor ctx.slot_to_imgbytes e1.1 ctx.slot_to_bindata = some slot :=
    beq_iff_eq.mp hp1.2
  have hu2 : usedSlotFor ctx.slot_to_imgbytes e2.1 ctx.slot_to_bindata = some slot :=
    beq_iff_eq.mp hp2.2
  have hm1 := usedSlotFor_mem ctx.slot_to_imgbytes e1.1 ctx.slot_to_bindata slot hu1
  have hm2 := usedSlotFor_mem ctx.slot_to_imgbytes e2.1 ctx.slot_to_bindata slot hu2
  exact keys_nodup_uniq ctx.slot_to_bindata slot e1.1 e2.1 hnd2 hm1 hm2

/-- Closed instance of claim C10: with `IMG_PHOTO` resolved to
`BinData/image1.png`, at most one part of the container is replaced on its
behalf. -/
theorem claim_C10_check :
    (entries10.map Prod.fst).Nodup ∧
      entries10.countP
          (fun e => strStartsWith e.1 binDataPref &&
            (usedSlotFor ctx10.slot_to_imgbytes e.1 ctx10.slot_to_bindata ==
              some imgPhoto)) ≤ 1 :=
  ⟨by decide, claim_C10.2.2.2 ctx10 imgPhoto entries10 (by decide) (by decide)⟩

theorem emitPart_img (C : Codec) (enc : String → Bytes)
    (slot url href : String) (raw : Bytes)
    (hpre : strStartsWith href binDataPref = true)
    (e : String × Bytes) :
    emitPart ⟨C, enc, STRIP_CLICK_HERE, true, [], [(slot, url)], [(slot, href)],
        [(slot, raw)]⟩ e =
      if e.1 = href then (e.1, raw) else e := by
  unfold emitPart
  dsimp only
  by_cases h1 : (is_xml_path e.1 && (!true || strStartsWith e.1 contentsPref)) = true
  · rw [if_pos h1]
    have hcont : strStartsWith e.1 contentsPref = true := by
      rw [Bool.and_eq_true] at h1
      simpa using h1.2
    have hne : e.1 ≠ href := by
      intro he
      exact contents_not_binData (he ▸ hcont) hpre
    rw [if_neg hne]
    split
    · have hpx : processXmlPart C STRIP_CLICK_HERE [] e.2 = e.2 := by
        unfold processXmlPart fill_fields_in_xml
        cases hp : C.parse e.2 with
        | none => simp only [hp]
        | some d =>
          simp only [hp, fillDoc_nilvals d]
          simp [STRIP_CLICK_HERE]
      rw [hpx]
    · rfl
  · rw [if_neg h1]
    by_cases h2 : strStartsWith e.1 binDataPref = true
    · rw [if_pos h2]
      by_cases h3 : (href == e.1) = true
      · have he : e.1 = href := (beq_iff_eq.mp h3).symm
        have hrf : replacementFor [(slot, raw)] e.1 [(slot, href)] = some raw := by
          unfold replacementFor
          rw [if_pos h3]
          simp [List.lookup_cons]
        rw [hrf, if_pos he]
      · have hne : e.1 ≠ href := fun he => h3 (beq_iff_eq.mpr he.symm)
        have hrf : replacementFor [(slot, raw)] e.1 [(slot, href)] = none := by
          unfold replacementFor
          cases hc : href == e.1 with
          | true => exact absurd hc h3
          | false => simp only [hc, Bool.false_eq_true, if_false]; rfl
        rw [hrf, if_neg hne]
    · have hne : e.1 ≠ href := by
        intro he
        rw [he] at h2
        exact h2 hpre
      rw [if_neg h2, if_neg hne]

/-- Claim C3: for a rewrite whose only submitted value is a resolvable
image slot (the per-slot scan yields a binary id, the id resolves to a
`BinData/...` path, and the declared media type of the payload is on the
allow-list), the only part whose bytes differ between source and output
container is the resolved binary-asset part, and its new bytes are the
decoded payload verbatim: the output is exactly the source container with
the part named by the resolved path replaced by the raw decoded bytes. -/
theorem claim_C3 (C : Codec) (enc : String → Bytes) (entries : List (String × Bytes))
    (slot url mime href bid : String) (raw : Bytes)
    (hslot : strStartsWith slot imgPref = true)
    (hdec : decode_data_url url = some (mime, raw))
    (hmime : mimeAllowed mime = true)
    (hbid : imageBinaryIdForSlot C true slot (allXml entries) = some bid)
    (hres : resolve_bindata_href_for_binary_item C (allXml entries) bid = some href)
    (hpre : strStartsWith href binDataPref = true) :
    generate_submit_hwpx C enc STRIP_CLICK_HERE entries
        [(slot, PayloadValue.image url)] true =
      some (entries.map (fun e => if e.1 = href then (e.1, raw) else e)) := by
  have hsplit : splitPayload [(slot, PayloadValue.image url)] = ([], [(slot, url)]) := by
    simp [splitPayload, hslot]
  have hs2b : buildSlotToBindata C true (allXml entries) [(slot, url)] = [(slot, href)] := by
    simp [buildSlotToBindata, hbid, hres]
  have hs2i : buildImgBytes [(slot, url)] = some [(slot, raw)] := by
    simp [buildImgBytes, hdec, hmime]
  unfold generate_submit_hwpx
  simp only [hsplit, hs2b, hs2i]
  rw [writeLoop_eq_map]
  congr 1
  exact List.map_congr_left (fun e _ => emitPart_img C enc slot url href raw hpre e)

/-- Closed instance of claim C3: only `BinData/image1.png` changes, and it
receives the decoded payload bytes verbatim. -/
theorem claim_C3_check :
    decode_data_url urlPng = some (("image/png" : String), [0, 0, 0]) ∧
      imageBinaryIdForSlot cx3 true imgPhoto (allXml entries3) = some image1 ∧
      resolve_bindata_href_for_binary_item cx3 (allXml entries3) image1 = some partBin ∧
      generate_submit_hwpx cx3 enc0 STRIP_CLICK_HERE entries3
          [(imgPhoto, PayloadValue.image urlPng)] true =
        some (entries3.map (fun e => if e.1 = partBin then (e.1, [0, 0, 0]) else e)) :=
  ⟨by decide, by decide, by decide,
    claim_C3 cx3 enc0 entries3 imgPhoto urlPng ("image/png") partBin image1 [0, 0, 0]
      (by decide) (by decide) (by decide) (by decide) (by decide) (by decide)⟩
